import Mathlib

/-!
Verification development for the content-addressed snapshot store
(`scalar_store.rs`) of the lurk-rs repository.

The Rust source is shallowly embedded below.  Pure functions become Lean
functions; the mutable `ScalarStore` methods become explicit state passing;
Rust panics (`todo!`, `unimplemented!`, `unwrap` of `None`, the
`copy_from_slice` length check) are modelled as `none` / `Except.error ()`
outcomes so that a failing encoding is distinguishable from a returned
field sequence; `BTreeMap` is modelled as an association list with strictly
increasing keys.

The host object store (`store.rs`), the field trait (`field.rs`) and the
pointer types they define are not part of the sources at hand; they are
modelled from the specification, and every such definition carries a
doc comment starting with `Modelled from the spec:`.
-/

namespace Lurk

/-- Modelled from the spec: the field arithmetic collaborator (`LurkField`
in `field.rs`, not in the sources).  The spec treats it as an opaque,
totally ordered, hashable scalar type with a canonical fixed-width byte
encoding (`to_repr`), a decoding (`from_repr`), a zero element and a
conversion from 64-bit integers.  The linear order is the canonical
ordering the spec requires (derived from the canonical byte encoding). -/
class LurkField (F : Type) extends LinearOrder F where
  zero : F
  ofU64 : Nat → F
  reprW : Nat
  toRepr : F → List Nat
  fromRepr : List Nat → Option F
  repr_len : ∀ x : F, (toRepr x).length = reprW

/-- Modelled from the spec: an expression content address, an ordered pair
`(tag, value)` of field elements (`ScalarPtr` in `store.rs`, not in the
sources). -/
structure ScalarPtr (F : Type) where
  tag : F
  value : F
deriving DecidableEq

/-- Modelled from the spec: a continuation content address, kept as a
distinct nominal type from `ScalarPtr` (`ScalarContPtr` in `store.rs`,
not in the sources). -/
structure ScalarContPtr (F : Type) where
  tag : F
  value : F
deriving DecidableEq

/-- Lexicographic order on expression content addresses: tag first, then
value.  This is the order of the canonical encoding of `(tag, digest)`
required by the spec for deterministic map iteration. -/
instance instLinearOrderScalarPtr {F : Type} [LurkField F] :
    LinearOrder (ScalarPtr F) :=
  LinearOrder.lift' (fun p => toLex (p.tag, p.value))
    (fun a b h => by
      cases a; cases b
      simpa [Prod.ext_iff] using congrArg ofLex h)

/-- Lexicographic order on continuation content addresses. -/
instance instLinearOrderScalarContPtr {F : Type} [LurkField F] :
    LinearOrder (ScalarContPtr F) :=
  LinearOrder.lift' (fun p => toLex (p.tag, p.value))
    (fun a b h => by
      cases a; cases b
      simpa [Prod.ext_iff] using congrArg ofLex h)

/-- The unified pointer `UPtr(F, F)` from `scalar_store.rs`, which merges
expression and continuation addresses for flat serialization.  Its order
in the source is the lexicographic comparison of the canonical byte
representations of the two components. -/
structure UPtr (F : Type) where
  tag : F
  value : F
deriving DecidableEq

instance instLinearOrderUPtr {F : Type} [LurkField F] :
    LinearOrder (UPtr F) :=
  LinearOrder.lift' (fun p => toLex (p.tag, p.value))
    (fun a b h => by
      cases a; cases b
      simpa [Prod.ext_iff] using congrArg ofLex h)

/-- The `From<ScalarPtr>` conversion into `UPtr`. -/
def UPtr.ofExpr {F : Type} (p : ScalarPtr F) : UPtr F := ⟨p.tag, p.value⟩

/-- The `From<ScalarContPtr>` conversion into `UPtr`. -/
def UPtr.ofCont {F : Type} (p : ScalarContPtr F) : UPtr F := ⟨p.tag, p.value⟩

/-- Association list lookup, the model of a finite-map `get`. -/
def lookupList {K V : Type} [DecidableEq K] (l : List (K × V)) (k : K) :
    Option V :=
  match l with
  | [] => none
  | (a, b) :: t => if k = a then some b else lookupList t k

section SMapDefs

variable {K V : Type} [LinearOrder K]

/-- Insertion into an association list with strictly increasing keys,
replacing the payload when the key is already present.  This is the
model of `BTreeMap::insert`. -/
def insertSortedList (k : K) (v : V) : List (K × V) → List (K × V)
  | [] => [(k, v)]
  | (a, b) :: t =>
    if k < a then (k, v) :: (a, b) :: t
    else if k = a then (k, v) :: t
    else (a, b) :: insertSortedList k v t

theorem mem_insertSortedList {k : K} {v : V} {l : List (K × V)} {x : K × V}
    (hx : x ∈ insertSortedList k v l) : x = (k, v) ∨ x ∈ l := by
  induction l with
  | nil =>
    simp only [insertSortedList] at hx
    exact Or.inl (List.mem_singleton.mp hx)
  | cons a t ih =>
    obtain ⟨a1, a2⟩ := a
    simp only [insertSortedList] at hx
    by_cases h1 : k < a1
    · rw [if_pos h1] at hx
      rcases List.mem_cons.mp hx with h | h
      · exact Or.inl h
      · exact Or.inr h
    · rw [if_neg h1] at hx
      by_cases h2 : k = a1
      · rw [if_pos h2] at hx
        rcases List.mem_cons.mp hx with h | h
        · exact Or.inl h
        · exact Or.inr (List.mem_cons_of_mem _ h)
      · rw [if_neg h2] at hx
        rcases List.mem_cons.mp hx with h | h
        · exact Or.inr (by simp [h])
        · rcases ih h with h' | h'
          · exact Or.inl h'
          · exact Or.inr (List.mem_cons_of_mem _ h')

theorem pairwise_insertSortedList {k : K} {v : V} {l : List (K × V)}
    (hl : l.Pairwise (fun a b => a.1 < b.1)) :
    (insertSortedList k v l).Pairwise (fun a b => a.1 < b.1) := by
  induction l with
  | nil => simp [insertSortedList]
  | cons a t ih =>
    obtain ⟨a1, a2⟩ := a
    rw [List.pairwise_cons] at hl
    obtain ⟨ha, ht⟩ := hl
    by_cases h1 : k < a1
    · simp only [insertSortedList, if_pos h1]
      refine List.Pairwise.cons ?_ (List.Pairwise.cons ha ht)
      intro x hx
      rcases List.mem_cons.mp hx with h | h
      · rw [h]; exact h1
      · exact lt_trans h1 (ha x h)
    · by_cases h2 : k = a1
      · simp only [insertSortedList, if_neg h1, if_pos h2]
        exact List.Pairwise.cons (by simpa [h2] using ha) ht
      · have hak : a1 < k := lt_of_le_of_ne (not_lt.mp h1) (Ne.symm h2)
        simp only [insertSortedList, if_neg h1, if_neg h2]
        refine List.Pairwise.cons ?_ (ih ht)
        intro x hx
        rcases mem_insertSortedList hx with h | h
        · rw [h]; exact hak
        · exact ha x h

theorem lookupList_insertSortedList_self (k : K) (v : V) (l : List (K × V)) :
    lookupList (insertSortedList k v l) k = some v := by
  induction l with
  | nil => simp [insertSortedList, lookupList]
  | cons a t ih =>
    obtain ⟨a1, a2⟩ := a
    by_cases h1 : k < a1
    · simp [insertSortedList, lookupList, if_pos h1]
    · by_cases h2 : k = a1
      · simp [insertSortedList, lookupList, if_neg h1, if_pos h2]
      · simp [insertSortedList, lookupList, if_neg h1, if_neg h2, h2, ih]

theorem lookupList_insertSortedList_ne {k k' : K} (hne : k' ≠ k) (v : V)
    (l : List (K × V)) :
    lookupList (insertSortedList k v l) k' = lookupList l k' := by
  induction l with
  | nil => simp [insertSortedList, lookupList, hne]
  | cons a t ih =>
    obtain ⟨a1, a2⟩ := a
    by_cases h1 : k < a1
    · simp [insertSortedList, lookupList, if_pos h1, hne]
    · by_cases h2 : k = a1
      · subst h2
        simp [insertSortedList, lookupList, if_neg h1, hne]
      · simp [insertSortedList, lookupList, if_neg h1, if_neg h2, ih]

end SMapDefs

section LookupDefs

variable {K V : Type} [DecidableEq K]

theorem lookupList_isSome_iff {l : List (K × V)} {k : K} :
    (lookupList l k).isSome = true ↔ k ∈ l.map Prod.fst := by
  induction l with
  | nil => simp [lookupList]
  | cons a t ih =>
    obtain ⟨a1, a2⟩ := a
    by_cases h : k = a1
    · simp [lookupList, h]
    · simp [lookupList, h, ih]

theorem lookupList_eq_some_mem {l : List (K × V)} {k : K} {v : V}
    (h : lookupList l k = some v) : (k, v) ∈ l := by
  induction l with
  | nil => simp [lookupList] at h
  | cons a t ih =>
    obtain ⟨a1, a2⟩ := a
    simp only [lookupList] at h
    by_cases hk : k = a1
    · rw [if_pos hk] at h
      injection h with h
      rw [hk, h]
      exact List.mem_cons_self _ _
    · rw [if_neg hk] at h
      exact List.mem_cons_of_mem _ (ih h)

end LookupDefs

section SMapDefsTwo

variable {K V : Type} [LinearOrder K]

theorem lookupList_eq_none_of_forall_lt {l : List (K × V)} {k : K}
    (h : ∀ x ∈ l, k < x.1) : lookupList l k = none := by
  induction l with
  | nil => simp [lookupList]
  | cons a t ih =>
    have hk : k ≠ a.1 := ne_of_lt (h a (List.mem_cons_self a t))
    obtain ⟨a1, a2⟩ := a
    simp only [lookupList, if_neg hk]
    exact ih (fun x hx => h x (List.mem_cons_of_mem _ hx))

/-- Two association lists with strictly increasing keys and the same
lookup function are equal. -/
theorem sorted_list_ext :
    ∀ {l1 l2 : List (K × V)}, l1.Pairwise (fun a b => a.1 < b.1) →
    l2.Pairwise (fun a b => a.1 < b.1) →
    (∀ k, lookupList l1 k = lookupList l2 k) → l1 = l2 := by
  intro l1
  induction l1 with
  | nil =>
    intro l2 _ h2 hl
    cases l2 with
    | nil => rfl
    | cons b t2 =>
      exfalso
      have := hl b.1
      simp [lookupList] at this
  | cons a t1 ih =>
    intro l2 h1 h2 hl
    cases l2 with
    | nil =>
      exfalso
      have h0 := hl a.1
      obtain ⟨x1, x2⟩ := a
      simp [lookupList] at h0
    | cons b t2 =>
      obtain ⟨x1, x2⟩ := a
      obtain ⟨y1, y2⟩ := b
      rw [List.pairwise_cons] at h1 h2
      obtain ⟨ha, ht1⟩ := h1
      obtain ⟨hb, ht2⟩ := h2
      have hma : lookupList ((y1, y2) :: t2) x1 = some x2 := by
        rw [← hl x1]; simp [lookupList]
      have hmb : lookupList ((x1, x2) :: t1) y1 = some y2 := by
        rw [hl y1]; simp [lookupList]
      have hab : x1 = y1 := by
        by_contra hne
        have hma' := lookupList_eq_some_mem hma
        have hmb' := lookupList_eq_some_mem hmb
        rcases List.mem_cons.mp hma' with h | h
        · exact hne (congrArg Prod.fst h)
        · rcases List.mem_cons.mp hmb' with h' | h'
          · exact hne (congrArg Prod.fst h').symm
          · exact absurd (lt_trans (hb _ h) (ha _ h')) (lt_irrefl _)
      subst hab
      have hv : x2 = y2 := by
        simp [lookupList] at hma
        exact hma.symm
      have htail : t1 = t2 := by
        refine ih ht1 ht2 (fun k => ?_)
        by_cases hk : k = x1
        · subst hk
          rw [lookupList_eq_none_of_forall_lt (fun x hx => ha x hx),
            lookupList_eq_none_of_forall_lt (fun x hx => hb x hx)]
        · have h0 := hl k
          simp only [lookupList, if_neg hk] at h0
          exact h0
      rw [hv, htail]

end SMapDefsTwo

/-- An ordered map: the model of `BTreeMap`.  Entries are kept as an
association list with strictly increasing keys. -/
structure SMap (K V : Type) [LinearOrder K] where
  entries : List (K × V)
  sorted : entries.Pairwise (fun a b => a.1 < b.1)

section SMapOps

variable {K V : Type} [LinearOrder K]

/-- The empty map, `BTreeMap::new`. -/
def SMap.empty : SMap K V := ⟨[], List.Pairwise.nil⟩

/-- Map insertion (`BTreeMap::insert`), replacing any existing payload. -/
def SMap.insert (m : SMap K V) (k : K) (v : V) : SMap K V :=
  ⟨insertSortedList k v m.entries, pairwise_insertSortedList m.sorted⟩

/-- Map lookup (`BTreeMap::get`). -/
def SMap.lookup (m : SMap K V) (k : K) : Option V :=
  lookupList m.entries k

theorem SMap.ext' {m1 m2 : SMap K V} (h : m1.entries = m2.entries) :
    m1 = m2 := by
  cases m1; cases m2; simpa using h

theorem SMap.lookup_ext {m1 m2 : SMap K V}
    (h : ∀ k, m1.lookup k = m2.lookup k) : m1 = m2 :=
  SMap.ext' (sorted_list_ext m1.sorted m2.sorted h)

theorem SMap.lookup_insert_self (m : SMap K V) (k : K) (v : V) :
    (m.insert k v).lookup k = some v :=
  lookupList_insertSortedList_self k v m.entries

theorem SMap.lookup_insert_ne (m : SMap K V) {k k' : K} (hne : k' ≠ k)
    (v : V) : (m.insert k v).lookup k' = m.lookup k' :=
  lookupList_insertSortedList_ne hne v m.entries

/-- Building a map by inserting a list of entries left to right
(later entries win), as `collect` on an iterator of pairs does. -/
def SMap.ofList (l : List (K × V)) : SMap K V :=
  l.foldl (fun m e => m.insert e.1 e.2) SMap.empty

theorem SMap.lookup_isSome_iff (m : SMap K V) (k : K) :
    (m.lookup k).isSome = true ↔ k ∈ m.entries.map Prod.fst :=
  lookupList_isSome_iff

theorem SMap.lookup_eq_some_mem {m : SMap K V} {k : K} {v : V}
    (h : m.lookup k = some v) : (k, v) ∈ m.entries :=
  lookupList_eq_some_mem h

end SMapOps

/-- Modelled from the spec: the tags of live heap values (`Tag` in
`store.rs`, not in the sources).  The nine variants are exactly the
expression payload variants of the payload table. -/
inductive Tag
  | nil
  | cons
  | comm
  | sym
  | fn
  | num
  | str
  | char
  | thunk
deriving DecidableEq

/-- Modelled from the spec: a live heap pointer (`Ptr` in `store.rs`,
not in the sources): a tag together with an index into the host store
heap.  Only its tag is inspected by `scalar_store.rs`. -/
structure Ptr (F : Type) where
  tag : Tag
  raw : Nat
deriving DecidableEq

/-- Modelled from the spec: the numeric literal payload (`Num` in the
crate root, not in the sources): either a 64-bit integer or a field
element. -/
inductive LNum (F : Type)
  | u64 : Nat → LNum F
  | scalar : F → LNum F
deriving DecidableEq

/-- Modelled from the spec: a unary operator code, represented by its
field encoding (`Op1::as_field`). -/
structure Op1 (F : Type) where
  asField : F
deriving DecidableEq

/-- Modelled from the spec: a binary operator code, represented by its
field encoding (`Op2::as_field`). -/
structure Op2 (F : Type) where
  asField : F
deriving DecidableEq

/-- Modelled from the spec: a relational operator code, represented by
its field encoding (`Rel2::as_field`). -/
structure Rel2 (F : Type) where
  asField : F
deriving DecidableEq

/-- The `ScalarThunk` struct of `scalar_store.rs`: a value address paired
with a continuation address. -/
structure ScalarThunk (F : Type) where
  value : ScalarPtr F
  continuation : ScalarContPtr F
deriving DecidableEq

/-- The `ScalarExpression` enum of `scalar_store.rs`. -/
inductive ScalarExpression (F : Type)
  | Nil
  | Cons : ScalarPtr F → ScalarPtr F → ScalarExpression F
  | Comm : F → ScalarPtr F → ScalarExpression F
  | Sym : String → ScalarExpression F
  | Fun : ScalarPtr F → ScalarPtr F → ScalarPtr F → ScalarExpression F
  | Num : F → ScalarExpression F
  | Str : String → ScalarExpression F
  | Thunk : ScalarThunk F → ScalarExpression F
  | Char : Char → ScalarExpression F
deriving DecidableEq

/-- The `ScalarContinuation` enum of `scalar_store.rs`.  Field order
within each variant follows the source. -/
inductive ScalarContinuation (F : Type)
  | Outermost
  | Call : ScalarPtr F → ScalarPtr F → ScalarContPtr F → ScalarContinuation F
  | Call2 : ScalarPtr F → ScalarPtr F → ScalarContPtr F → ScalarContinuation F
  | Tail : ScalarPtr F → ScalarContPtr F → ScalarContinuation F
  | Error
  | Lookup : ScalarPtr F → ScalarContPtr F → ScalarContinuation F
  | Unop : Op1 F → ScalarContPtr F → ScalarContinuation F
  | Binop : Op2 F → ScalarPtr F → ScalarPtr F → ScalarContPtr F → ScalarContinuation F
  | Binop2 : Op2 F → ScalarPtr F → ScalarContPtr F → ScalarContinuation F
  | Relop : Rel2 F → ScalarPtr F → ScalarPtr F → ScalarContPtr F → ScalarContinuation F
  | Relop2 : Rel2 F → ScalarPtr F → ScalarContPtr F → ScalarContinuation F
  | If : ScalarPtr F → ScalarContPtr F → ScalarContinuation F
  | Let : ScalarPtr F → ScalarPtr F → ScalarPtr F → ScalarContPtr F → ScalarContinuation F
  | LetRec : ScalarPtr F → ScalarPtr F → ScalarPtr F → ScalarContPtr F → ScalarContinuation F
  | Emit : ScalarContPtr F → ScalarContinuation F
  | Dummy
  | Terminal
deriving DecidableEq

/-- Modelled from the spec: the host object store (`Store` in `store.rs`,
not in the sources).  It holds live heap values, performs structural
hashing into content addresses (`get_expr_hash`, backed by the hydrated
scalar cache, modelled here as the finite association list
`exprHashList`), offers the reverse map from content addresses to live
pointers (`scalar_ptr_map`, a finite map, modelled as an association
list), and decomposes live values by tag (the `fetch_*` accessors). -/
structure Store (F : Type) where
  exprHashList : List (Ptr F × ScalarPtr F)
  scalarPtrMap : List (ScalarPtr F × Ptr F)
  fetchConsMap : Ptr F → Option (Ptr F × Ptr F)
  fetchCommMap : Ptr F → Option (F × Ptr F)
  fetchSymMap : Ptr F → Option String
  fetchFunMap : Ptr F → Option (Ptr F × Ptr F × Ptr F)
  fetchNumMap : Ptr F → Option (LNum F)
  fetchStrMap : Ptr F → Option String
  fetchCharMap : Ptr F → Option Char

variable {F : Type}

/-- Modelled from the spec: `Store::get_expr_hash`, the (hydrated)
structural hash lookup from live pointers to content addresses. -/
def Store.getExprHash [DecidableEq F] (store : Store F) (p : Ptr F) :
    Option (ScalarPtr F) :=
  lookupList store.exprHashList p

variable [LurkField F]

/-- The `ScalarStore` struct of `scalar_store.rs`: two ordered maps from
content addresses to optional payloads.  A `none` payload is an opaque
entry. -/
structure ScalarStore (F : Type) [LurkField F] where
  scalar_map : SMap (ScalarPtr F) (Option (ScalarExpression F))
  scalar_cont_map : SMap (ScalarContPtr F) (Option (ScalarContinuation F))

/-- The `Default` instance of `ScalarStore`: both maps empty. -/
def ScalarStore.empty : ScalarStore F := ⟨SMap.empty, SMap.empty⟩

/-- The `ScalarExpression::from_ptr` conversion.  Failure to fetch a
preimage or to resolve a child hash yields `Option.none`
(`.ok none` here); the `Tag::Thunk` arm is `unimplemented!()` in the
source, which is a panic, modelled as `Except.error ()`. -/
def ScalarExpression.fromPtr (store : Store F) (ptr : Ptr F) :
    Except Unit (Option (ScalarExpression F)) :=
  match ptr.tag with
  | Tag.nil => .ok (some ScalarExpression.Nil)
  | Tag.cons => .ok ((store.fetchConsMap ptr).bind (fun cc =>
      (store.getExprHash cc.1).bind (fun car =>
        (store.getExprHash cc.2).map (fun cdr =>
          ScalarExpression.Cons car cdr))))
  | Tag.comm => .ok ((store.fetchCommMap ptr).bind (fun sp =>
      (store.getExprHash sp.2).map (fun payload =>
        ScalarExpression.Comm sp.1 payload)))
  | Tag.sym => .ok ((store.fetchSymMap ptr).map ScalarExpression.Sym)
  | Tag.fn => .ok ((store.fetchFunMap ptr).bind (fun abe =>
      (store.getExprHash abe.1).bind (fun arg =>
        (store.getExprHash abe.2.1).bind (fun body =>
          (store.getExprHash abe.2.2).map (fun closed_env =>
            ScalarExpression.Fun arg body closed_env)))))
  | Tag.num => .ok ((store.fetchNumMap ptr).map (fun n =>
      match n with
      | LNum.u64 x => ScalarExpression.Num (LurkField.ofU64 x)
      | LNum.scalar x => ScalarExpression.Num x))
  | Tag.str => .ok ((store.fetchStrMap ptr).map ScalarExpression.Str)
  | Tag.char => .ok ((store.fetchCharMap ptr).map ScalarExpression.Char)
  | Tag.thunk => .error ()

/-- The `ScalarStore::child_scalar_ptrs` function: all expression
addresses directly reachable from a payload.  Note that the source
returns `None` for `Thunk` (its children are not traversed). -/
def childScalarPtrs (e : ScalarExpression F) :
    Option (List (ScalarPtr F)) :=
  match e with
  | ScalarExpression.Nil => none
  | ScalarExpression.Cons car cdr => some [car, cdr]
  | ScalarExpression.Comm _ payload => some [payload]
  | ScalarExpression.Sym _ => none
  | ScalarExpression.Fun arg body closed_env => some [arg, body, closed_env]
  | ScalarExpression.Num _ => none
  | ScalarExpression.Str _ => none
  | ScalarExpression.Thunk _ => none
  | ScalarExpression.Char _ => none

/-- The `ScalarStore::add` method.  The pending worklist is the `Vec`
used as a stack by the source; it is modelled with the most recently
pushed pointer at the head of the list, so `Vec::extend` of the child
list becomes prepending the reversed child list.  The
`BTreeMap::entry(..).or_insert_with(..)` call runs its closure only when
the key is absent; an occupied entry is left untouched and queues
nothing. -/
def ScalarStore.add (store : Store F) (s : ScalarStore F)
    (pending : List (ScalarPtr F)) (ptr : Ptr F) (scalar_ptr : ScalarPtr F) :
    Except Unit (ScalarStore F × List (ScalarPtr F)) :=
  match s.scalar_map.lookup scalar_ptr with
  | some _ => .ok (s, pending)
  | none =>
    match ScalarExpression.fromPtr store ptr with
    | .error e => .error e
    | .ok none =>
      .ok ({ s with scalar_map := s.scalar_map.insert scalar_ptr none },
        pending)
    | .ok (some scalar_expression) =>
      let new_pending_scalar_ptrs :=
        match childScalarPtrs scalar_expression with
        | some more_scalar_ptrs => more_scalar_ptrs
        | none => []
      .ok ({ s with scalar_map :=
          s.scalar_map.insert scalar_ptr (some scalar_expression) },
        new_pending_scalar_ptrs.reverse ++ pending)

/-- The `ScalarStore::add_scalar_ptr` method: look the address up in the
host store reverse map; when a live pointer is found, `add` it;
otherwise do nothing. -/
def ScalarStore.addScalarPtr (store : Store F) (s : ScalarStore F)
    (pending : List (ScalarPtr F)) (scalar_ptr : ScalarPtr F) :
    Except Unit (ScalarStore F × List (ScalarPtr F)) :=
  match lookupList store.scalarPtrMap scalar_ptr with
  | some ptr => ScalarStore.add store s pending ptr scalar_ptr
  | none => .ok (s, pending)

/-- The `ScalarStore::add_ptr` method: resolve the expression hash of a
live pointer and `add` it, returning the resolved address. -/
def ScalarStore.addPtr (store : Store F) (s : ScalarStore F)
    (pending : List (ScalarPtr F)) (expr : Ptr F) :
    Except Unit ((ScalarStore F × List (ScalarPtr F)) × Option (ScalarPtr F)) :=
  match store.getExprHash expr with
  | some scalar_ptr =>
    (ScalarStore.add store s pending expr scalar_ptr).map
      (fun r => (r, some scalar_ptr))
  | none => .ok ((s, pending), none)

/-- One fuelled unfolding of the `while let Some(scalar_ptr) =
pending.pop()` loop of `add_pending_scalar_ptrs`.  The loop itself is
not structurally recursive; it is embedded with an explicit fuel
parameter, and `pendingFuel` below is a proven-sufficient fuel bound. -/
def ScalarStore.runPending (store : Store F) :
    Nat → ScalarStore F → List (ScalarPtr F) →
    Except Unit (ScalarStore F × List (ScalarPtr F))
  | _, s, [] => .ok (s, [])
  | 0, s, pending => .ok (s, pending)
  | fuel + 1, s, scalar_ptr :: rest =>
    match ScalarStore.addScalarPtr store s rest scalar_ptr with
    | .error e => .error e
    | .ok (s2, pending2) => ScalarStore.runPending store fuel s2 pending2

/-- The keys of the host store reverse map, as a finite set. -/
def Store.spmDom (store : Store F) : Finset (ScalarPtr F) :=
  (store.scalarPtrMap.map Prod.fst).toFinset

/-- The keys currently present in the expression map, as a finite set. -/
def ScalarStore.keysFinset (s : ScalarStore F) : Finset (ScalarPtr F) :=
  (s.scalar_map.entries.map Prod.fst).toFinset

/-- A fuel bound for the worklist loop: each iteration either consumes a
pending pointer without inserting, or inserts a key of the reverse map
not yet present (queueing at most three children), so the quantity
below strictly decreases at every iteration. -/
def ScalarStore.pendingFuel (store : Store F) (s : ScalarStore F)
    (pending : List (ScalarPtr F)) : Nat :=
  pending.length + 3 * (store.spmDom \ s.keysFinset).card

/-- The `ScalarStore::add_pending_scalar_ptrs` loop, run with the
sufficient fuel bound. -/
def ScalarStore.addPendingScalarPtrs (store : Store F) (s : ScalarStore F)
    (pending : List (ScalarPtr F)) :
    Except Unit (ScalarStore F × List (ScalarPtr F)) :=
  ScalarStore.runPending store (ScalarStore.pendingFuel store s pending) s
    pending

/-- The `ScalarStore::finalize` method: drain the pending worklist. -/
def ScalarStore.finalizeStore (store : Store F) (s : ScalarStore F)
    (pending : List (ScalarPtr F)) : Except Unit (ScalarStore F) :=
  (ScalarStore.addPendingScalarPtrs store s pending).map Prod.fst

/-- The `ScalarStore::add_one_ptr` method: `add_ptr` then `finalize`. -/
def ScalarStore.addOnePtr (store : Store F) (s : ScalarStore F)
    (pending : List (ScalarPtr F)) (expr : Ptr F) :
    Except Unit (ScalarStore F × Option (ScalarPtr F)) :=
  match ScalarStore.addPtr store s pending expr with
  | .error e => .error e
  | .ok (r, scalar_ptr) =>
    (ScalarStore.finalizeStore store r.1 r.2).map (fun s2 => (s2, scalar_ptr))

/-- The `ScalarStore::new_with_expr` constructor: starting from the
default (empty) store and an empty pending list, add everything
reachable from `expr`. -/
def ScalarStore.newWithExpr (store : Store F) (expr : Ptr F) :
    Except Unit (ScalarStore F × Option (ScalarPtr F)) :=
  ScalarStore.addOnePtr store ScalarStore.empty [] expr

/-- The big-endian bytes of a 32-bit code point, `u32::to_be_bytes`. -/
def u32BeBytes (n : Nat) : List Nat :=
  [n / 2 ^ 24 % 256, n / 2 ^ 16 % 256, n / 2 ^ 8 % 256, n % 256]

/-- The `char_to_f` function of `scalar_store.rs`: take the canonical
representation buffer of `F::default()` (the zero element) and
`copy_from_slice` the four big-endian code point bytes into it, then
decode with `from_repr`.  `slice::copy_from_slice` panics when the two
slices have different lengths, so the whole call is modelled as `none`
in that case; `from_repr` may also reject. -/
def char_to_f (c : Char) : Option F :=
  let bytes := u32BeBytes c.toNat
  let buf := LurkField.toRepr (LurkField.zero : F)
  if buf.length = bytes.length then LurkField.fromRepr bytes else none

/-- The `ScalarExpression::ser_f` flat encoding.  The `Nil`, `Sym` and
`Str` arms are `todo!()` in the source (a panic), and the `Char` arm
calls `char_to_f(c).unwrap()` (a panic when `char_to_f` fails); all
panics are modelled as `none`. -/
def ScalarExpression.serF (e : ScalarExpression F) : Option (List F) :=
  match e with
  | ScalarExpression.Nil => none
  | ScalarExpression.Cons car cdr =>
    some [car.tag, car.value, cdr.tag, cdr.value]
  | ScalarExpression.Comm a b => some [a, b.tag, b.value]
  | ScalarExpression.Sym _ => none
  | ScalarExpression.Fun arg body closed_env =>
    some [arg.tag, arg.value, body.tag, body.value,
      closed_env.tag, closed_env.value]
  | ScalarExpression.Str _ => none
  | ScalarExpression.Thunk thunk =>
    some [thunk.value.tag, thunk.value.value,
      thunk.continuation.tag, thunk.continuation.value]
  | ScalarExpression.Char c =>
    match char_to_f c with
    | some f => some [f]
    | none => none
  | ScalarExpression.Num x => some [x]

/-- The `ScalarContinuation::ser_f` flat encoding.  The `Outermost`,
`Error`, `Dummy` and `Terminal` arms are `todo!()` in the source (a
panic), modelled as `none`. -/
def ScalarContinuation.serF (k : ScalarContinuation F) : Option (List F) :=
  match k with
  | ScalarContinuation.Outermost => none
  | ScalarContinuation.Call unevaled_arg saved_env continuation =>
    some [unevaled_arg.tag, unevaled_arg.value,
      saved_env.tag, saved_env.value,
      continuation.tag, continuation.value]
  | ScalarContinuation.Call2 function saved_env continuation =>
    some [function.tag, function.value,
      saved_env.tag, saved_env.value,
      continuation.tag, continuation.value]
  | ScalarContinuation.Tail saved_env continuation =>
    some [saved_env.tag, saved_env.value,
      continuation.tag, continuation.value]
  | ScalarContinuation.Error => none
  | ScalarContinuation.Lookup saved_env continuation =>
    some [saved_env.tag, saved_env.value,
      continuation.tag, continuation.value]
  | ScalarContinuation.Unop operator continuation =>
    some [operator.asField, continuation.tag, continuation.value]
  | ScalarContinuation.Binop operator saved_env unevaled_args continuation =>
    some [operator.asField, saved_env.tag, saved_env.value,
      unevaled_args.tag, unevaled_args.value,
      continuation.tag, continuation.value]
  | ScalarContinuation.Binop2 operator evaled_arg continuation =>
    some [operator.asField, evaled_arg.tag, evaled_arg.value,
      continuation.tag, continuation.value]
  | ScalarContinuation.Relop operator saved_env unevaled_args continuation =>
    some [operator.asField, saved_env.tag, saved_env.value,
      unevaled_args.tag, unevaled_args.value,
      continuation.tag, continuation.value]
  | ScalarContinuation.Relop2 operator evaled_arg continuation =>
    some [operator.asField, evaled_arg.tag, evaled_arg.value,
      continuation.tag, continuation.value]
  | ScalarContinuation.If unevaled_args continuation =>
    some [unevaled_args.tag, unevaled_args.value,
      continuation.tag, continuation.value]
  | ScalarContinuation.Let var body saved_env continuation =>
    some [var.tag, var.value, body.tag, body.value,
      saved_env.tag, saved_env.value,
      continuation.tag, continuation.value]
  | ScalarContinuation.LetRec var body saved_env continuation =>
    some [var.tag, var.value, body.tag, body.value,
      saved_env.tag, saved_env.value,
      continuation.tag, continuation.value]
  | ScalarContinuation.Emit continuation =>
    some [continuation.tag, continuation.value]
  | ScalarContinuation.Dummy => none
  | ScalarContinuation.Terminal => none

/-- The payload encoding of one expression map entry in
`ScalarStore::ser_f`: `expr.map_or_else(|| vec![F::zero()], |x|
x.ser_f())` — an opaque entry contributes the single zero sentinel. -/
def exprPayloadF (v : Option (ScalarExpression F)) : Option (List F) :=
  match v with
  | none => some [(LurkField.zero : F)]
  | some x => x.serF

/-- The payload encoding of one continuation map entry in
`ScalarStore::ser_f`. -/
def contPayloadF (v : Option (ScalarContinuation F)) : Option (List F) :=
  match v with
  | none => some [(LurkField.zero : F)]
  | some x => x.serF

/-- The `ScalarStore::ser_f` flat canonical serialization: build one
`BTreeMap` keyed by `UPtr` holding the encoded payload of every entry of
both maps (expression map first, then continuation map), then emit
`tag, digest, payload...` for every entry in ascending key order.  A
panicking payload encoding is modelled by propagating `none`. -/
def ScalarStore.serF (s : ScalarStore F) : Option (List F) := do
  let m1 ← s.scalar_map.entries.foldlM
    (fun (m : SMap (UPtr F) (List F)) e => do
      let fs ← exprPayloadF e.2
      pure (m.insert (UPtr.ofExpr e.1) fs))
    SMap.empty
  let m2 ← s.scalar_cont_map.entries.foldlM
    (fun (m : SMap (UPtr F) (List F)) e => do
      let fs ← contPayloadF e.2
      pure (m.insert (UPtr.ofCont e.1) fs))
    m1
  pure (m2.entries.foldl (fun res e => res ++ e.1.tag :: e.1.value :: e.2) [])

/-- A payload of the merged map used to state the specified form of
`ser_f`: either an expression map payload or a continuation map
payload. -/
inductive UPayload (F : Type)
  | expr : Option (ScalarExpression F) → UPayload F
  | cont : Option (ScalarContinuation F) → UPayload F
deriving DecidableEq

/-- Field encoding of a merged payload, with the single zero sentinel
for opaque (`none`) entries, as the spec describes. -/
def UPayload.fields : UPayload F → Option (List F)
  | UPayload.expr v => exprPayloadF v
  | UPayload.cont v => contPayloadF v

/-- Stated from the spec sentence for the flat canonical form: the single
map obtained by merging the expression and continuation maps, keyed by
the unified `(tag, digest)` pair. -/
def ScalarStore.mergedMap (s : ScalarStore F) : SMap (UPtr F) (UPayload F) :=
  SMap.ofList
    (s.scalar_map.entries.map (fun e => (UPtr.ofExpr e.1, UPayload.expr e.2))
      ++ s.scalar_cont_map.entries.map
        (fun e => (UPtr.ofCont e.1, UPayload.cont e.2)))

/-- Stated from the spec sentence: iterate the merged entries in
ascending key order and, for each entry, emit the tag, then the digest,
then the payload field encoding. -/
def emitEntries : List (UPtr F × UPayload F) → Option (List F)
  | [] => some []
  | (u, pay) :: t => do
    let fs ← pay.fields
    let rest ← emitEntries t
    pure (u.tag :: u.value :: fs ++ rest)

/-- The flat canonical serialization in the exact shape the spec
describes it. -/
def ScalarStore.serFSpec (s : ScalarStore F) : Option (List F) :=
  emitEntries s.mergedMap.entries

/-- Every payload of both maps has a defined (non-panicking) flat
encoding.  Opaque entries always do (the zero sentinel). -/
def ScalarStore.allEncodable (s : ScalarStore F) : Prop :=
  (∀ e ∈ s.scalar_map.entries, (exprPayloadF e.2).isSome = true) ∧
    (∀ e ∈ s.scalar_cont_map.entries, (contPayloadF e.2).isSome = true)

instance (s : ScalarStore F) : Decidable s.allEncodable := by
  unfold ScalarStore.allEncodable
  infer_instance

/-- A concrete field model used for witnesses: the integers mod 256 under
their natural order, with a 32-byte canonical representation — the byte
width of the canonical representation of the bls12-381 scalar field the
repository instantiates `F` with. -/
abbrev F32 := Fin 256

instance : LurkField F32 :=
  { (inferInstanceAs (LinearOrder (Fin 256))) with
    zero := (0 : Fin 256)
    ofU64 := fun n => ⟨n % 256, Nat.mod_lt n (by decide)⟩
    reprW := 32
    toRepr := fun x => List.replicate 31 0 ++ [x.val]
    fromRepr := fun l =>
      match l.getLast? with
      | some b => if h : b < 256 then some ⟨b, h⟩ else none
      | none => none
    repr_len := fun x => by simp }

/-- A live numeric pointer of the concrete witness store. -/
def wNum1 : Ptr F32 := ⟨Tag.num, 1⟩

/-- A second live numeric pointer of the concrete witness store. -/
def wNum2 : Ptr F32 := ⟨Tag.num, 2⟩

/-- The live cons pointer of the concrete witness store. -/
def wCons : Ptr F32 := ⟨Tag.cons, 0⟩

/-- Content address of `wNum1`. -/
def waNum1 : ScalarPtr F32 := ⟨4, 1⟩

/-- Content address of `wNum2`. -/
def waNum2 : ScalarPtr F32 := ⟨4, 2⟩

/-- Content address of `wCons`. -/
def waCons : ScalarPtr F32 := ⟨1, 10⟩

/-- A concrete hydrated host store holding the pair value `(1 . 2)`:
one cons cell and two numeric atoms. -/
def wStore : Store F32 where
  exprHashList := [(wCons, waCons), (wNum1, waNum1), (wNum2, waNum2)]
  scalarPtrMap := [(waCons, wCons), (waNum1, wNum1), (waNum2, wNum2)]
  fetchConsMap := fun p => if p = wCons then some (wNum1, wNum2) else none
  fetchCommMap := fun _ => none
  fetchSymMap := fun _ => none
  fetchFunMap := fun _ => none
  fetchNumMap := fun p =>
    if p = wNum1 then some (LNum.u64 1)
    else if p = wNum2 then some (LNum.u64 2) else none
  fetchStrMap := fun _ => none
  fetchCharMap := fun _ => none

instance {ε α : Type} [DecidableEq ε] [DecidableEq α] :
    DecidableEq (Except ε α) := fun x y =>
  match x, y with
  | .error a, .error b =>
    if h : a = b then isTrue (by rw [h]) else isFalse (by simp [h])
  | .error _, .ok _ => isFalse (by simp)
  | .ok _, .error _ => isFalse (by simp)
  | .ok a, .ok b =>
    if h : a = b then isTrue (by rw [h]) else isFalse (by simp [h])

/-- A host store with an empty reverse map, used when an address has no
live value at all. -/
def wStoreEmptyRev : Store F32 where
  exprHashList := []
  scalarPtrMap := []
  fetchConsMap := fun _ => none
  fetchCommMap := fun _ => none
  fetchSymMap := fun _ => none
  fetchFunMap := fun _ => none
  fetchNumMap := fun _ => none
  fetchStrMap := fun _ => none
  fetchCharMap := fun _ => none

/-- A snapshot graph that already holds `waCons` as an opaque entry. -/
def wOpaqueS : ScalarStore F32 :=
  { scalar_map := SMap.empty.insert waCons none
    scalar_cont_map := SMap.empty }

section AddLemmas

/-- `add` never modifies an entry that is already present: whatever an
address was mapped to before the call, it is mapped to the same payload
afterwards. -/
theorem add_preserves_entry {store : Store F} {s : ScalarStore F}
    {pending : List (ScalarPtr F)} {ptr : Ptr F} {sp : ScalarPtr F}
    {s2 : ScalarStore F} {p2 : List (ScalarPtr F)}
    (h : ScalarStore.add store s pending ptr sp = Except.ok (s2, p2))
    {k : ScalarPtr F} {v : Option (ScalarExpression F)}
    (hk : s.scalar_map.lookup k = some v) :
    s2.scalar_map.lookup k = some v := by
  unfold ScalarStore.add at h
  cases hl : s.scalar_map.lookup sp with
  | some w =>
    rw [hl] at h
    simp only [Except.ok.injEq, Prod.mk.injEq] at h
    rw [← h.1]
    exact hk
  | none =>
    have hksp : k ≠ sp := by
      intro he
      rw [he, hl] at hk
      exact Option.noConfusion hk
    rw [hl] at h
    cases hf : ScalarExpression.fromPtr store ptr with
    | error e => rw [hf] at h; exact Except.noConfusion h
    | ok oe =>
      rw [hf] at h
      cases oe with
      | none =>
        simp only [Except.ok.injEq, Prod.mk.injEq] at h
        rw [← h.1]
        rw [SMap.lookup_insert_ne _ hksp]
        exact hk
      | some e =>
        simp only [Except.ok.injEq, Prod.mk.injEq] at h
        rw [← h.1]
        rw [SMap.lookup_insert_ne _ hksp]
        exact hk

/-- `add` leaves the continuation map untouched. -/
theorem add_cont_map_eq {store : Store F} {s : ScalarStore F}
    {pending : List (ScalarPtr F)} {ptr : Ptr F} {sp : ScalarPtr F}
    {s2 : ScalarStore F} {p2 : List (ScalarPtr F)}
    (h : ScalarStore.add store s pending ptr sp = Except.ok (s2, p2)) :
    s2.scalar_cont_map = s.scalar_cont_map := by
  unfold ScalarStore.add at h
  cases hl : s.scalar_map.lookup sp with
  | some w =>
    rw [hl] at h
    simp only [Except.ok.injEq, Prod.mk.injEq] at h
    rw [← h.1]
  | none =>
    rw [hl] at h
    cases hf : ScalarExpression.fromPtr store ptr with
    | error e => rw [hf] at h; exact Except.noConfusion h
    | ok oe =>
      rw [hf] at h
      cases oe with
      | none =>
        simp only [Except.ok.injEq, Prod.mk.injEq] at h
        rw [← h.1]
      | some e =>
        simp only [Except.ok.injEq, Prod.mk.injEq] at h
        rw [← h.1]

/-- `add_scalar_ptr` never modifies an entry that is already present. -/
theorem addScalarPtr_preserves_entry {store : Store F} {s : ScalarStore F}
    {pending : List (ScalarPtr F)} {sp : ScalarPtr F}
    {s2 : ScalarStore F} {p2 : List (ScalarPtr F)}
    (h : ScalarStore.addScalarPtr store s pending sp = Except.ok (s2, p2))
    {k : ScalarPtr F} {v : Option (ScalarExpression F)}
    (hk : s.scalar_map.lookup k = some v) :
    s2.scalar_map.lookup k = some v := by
  unfold ScalarStore.addScalarPtr at h
  cases hl : lookupList store.scalarPtrMap sp with
  | some ptr =>
    rw [hl] at h
    exact add_preserves_entry h hk
  | none =>
    rw [hl] at h
    simp only [Except.ok.injEq, Prod.mk.injEq] at h
    rw [← h.1]
    exact hk

/-- `add_scalar_ptr` leaves the continuation map untouched. -/
theorem addScalarPtr_cont_map_eq {store : Store F} {s : ScalarStore F}
    {pending : List (ScalarPtr F)} {sp : ScalarPtr F}
    {s2 : ScalarStore F} {p2 : List (ScalarPtr F)}
    (h : ScalarStore.addScalarPtr store s pending sp = Except.ok (s2, p2)) :
    s2.scalar_cont_map = s.scalar_cont_map := by
  unfold ScalarStore.addScalarPtr at h
  cases hl : lookupList store.scalarPtrMap sp with
  | some ptr =>
    rw [hl] at h
    exact add_cont_map_eq h
  | none =>
    rw [hl] at h
    simp only [Except.ok.injEq, Prod.mk.injEq] at h
    rw [← h.1]

/-- The worklist loop never modifies an entry that is already present. -/
theorem runPending_preserves_entry {store : Store F} :
    ∀ {fuel : Nat} {s : ScalarStore F} {pending : List (ScalarPtr F)}
    {s2 : ScalarStore F} {p2 : List (ScalarPtr F)},
    ScalarStore.runPending store fuel s pending = Except.ok (s2, p2) →
    ∀ {k : ScalarPtr F} {v : Option (ScalarExpression F)},
    s.scalar_map.lookup k = some v → s2.scalar_map.lookup k = some v := by
  intro fuel
  induction fuel with
  | zero =>
    intro s pending s2 p2 h k v hk
    cases pending with
    | nil =>
      simp only [ScalarStore.runPending, Except.ok.injEq, Prod.mk.injEq] at h
      rw [← h.1]
      exact hk
    | cons a t =>
      simp only [ScalarStore.runPending, Except.ok.injEq, Prod.mk.injEq] at h
      rw [← h.1]
      exact hk
  | succ n ih =>
    intro s pending s2 p2 h k v hk
    cases pending with
    | nil =>
      simp only [ScalarStore.runPending, Except.ok.injEq, Prod.mk.injEq] at h
      rw [← h.1]
      exact hk
    | cons a t =>
      simp only [ScalarStore.runPending] at h
      cases hst : ScalarStore.addScalarPtr store s t a with
      | error e => rw [hst] at h; exact Except.noConfusion h
      | ok r =>
        rw [hst] at h
        exact ih h (addScalarPtr_preserves_entry hst hk)

/-- The worklist loop leaves the continuation map untouched. -/
theorem runPending_cont_map_eq {store : Store F} :
    ∀ {fuel : Nat} {s : ScalarStore F} {pending : List (ScalarPtr F)}
    {s2 : ScalarStore F} {p2 : List (ScalarPtr F)},
    ScalarStore.runPending store fuel s pending = Except.ok (s2, p2) →
    s2.scalar_cont_map = s.scalar_cont_map := by
  intro fuel
  induction fuel with
  | zero =>
    intro s pending s2 p2 h
    cases pending with
    | nil =>
      simp only [ScalarStore.runPending, Except.ok.injEq, Prod.mk.injEq] at h
      rw [← h.1]
    | cons a t =>
      simp only [ScalarStore.runPending, Except.ok.injEq, Prod.mk.injEq] at h
      rw [← h.1]
  | succ n ih =>
    intro s pending s2 p2 h
    cases pending with
    | nil =>
      simp only [ScalarStore.runPending, Except.ok.injEq, Prod.mk.injEq] at h
      rw [← h.1]
    | cons a t =>
      simp only [ScalarStore.runPending] at h
      cases hst : ScalarStore.addScalarPtr store s t a with
      | error e => rw [hst] at h; exact Except.noConfusion h
      | ok r =>
        rw [hst] at h
        rw [ih h, addScalarPtr_cont_map_eq hst]

end AddLemmas

/-- `add_ptr` leaves the continuation map untouched. -/
theorem addPtr_cont_map_eq {store : Store F} {s : ScalarStore F}
    {pending : List (ScalarPtr F)} {expr : Ptr F}
    {r : ScalarStore F × List (ScalarPtr F)} {sp : Option (ScalarPtr F)}
    (h : ScalarStore.addPtr store s pending expr = Except.ok (r, sp)) :
    r.1.scalar_cont_map = s.scalar_cont_map := by
  unfold ScalarStore.addPtr at h
  cases hg : store.getExprHash expr with
  | some sp0 =>
    rw [hg] at h
    dsimp only at h
    cases ha : ScalarStore.add store s pending expr sp0 with
    | error e => rw [ha] at h; exact Except.noConfusion h
    | ok r0 =>
      rw [ha] at h
      simp only [Except.map, Except.ok.injEq, Prod.mk.injEq] at h
      rw [← h.1]
      exact add_cont_map_eq ha
  | none =>
    rw [hg] at h
    simp only [Except.ok.injEq, Prod.mk.injEq] at h
    rw [← h.1]

/-- A snapshot graph holding a single resolved numeric entry. -/
def wResolvedS : ScalarStore F32 :=
  { scalar_map := SMap.empty.insert waNum1 (some (ScalarExpression.Num 1))
    scalar_cont_map := SMap.empty }

/-- The result of adding the cons cell of `wStore` to `wResolvedS`. -/
def wAddedS : ScalarStore F32 :=
  { scalar_map :=
      (SMap.empty.insert waNum1 (some (ScalarExpression.Num 1))).insert
        waCons (some (ScalarExpression.Cons waNum1 waNum2))
    scalar_cont_map := SMap.empty }

/-- The snapshot graph produced by materializing `(1 . 2)` from
`wStore`. -/
def wFinalS : ScalarStore F32 :=
  { scalar_map :=
      ((SMap.empty.insert waCons
        (some (ScalarExpression.Cons waNum1 waNum2))).insert
          waNum2 (some (ScalarExpression.Num 2))).insert
            waNum1 (some (ScalarExpression.Num 1))
    scalar_cont_map := SMap.empty }

/-- C2, counterexample.  The host store knows the preimage of `waCons`
(`from_ptr` succeeds and yields a `Cons` payload with two children), and
the snapshot graph already maps `waCons` to `None`; the claim says the
entry is then resolved in place to `Some(payload)` and the children are
enqueued.  In fact `add` (reached through `add_scalar_ptr`) leaves the
entry `None` and enqueues nothing, because
`BTreeMap::entry(..).or_insert_with(..)` does not touch occupied
entries. -/
theorem opacity_resolution_in_place_counterexample :
    ScalarExpression.fromPtr wStore wCons =
      .ok (some (ScalarExpression.Cons waNum1 waNum2)) ∧
    lookupList wStore.scalarPtrMap waCons = some wCons ∧
    wOpaqueS.scalar_map.lookup waCons = some none ∧
    (ScalarStore.addScalarPtr wStore wOpaqueS [] waCons).map
      (fun r => (r.1.scalar_map.entries, r.2)) =
      .ok ([(waCons, none)], []) := by
  refine ⟨rfl, rfl, rfl, ?_⟩
  decide

/-- C2, amended: once an address is a key of the snapshot graph (even as
an opaque `None` entry), processing it again leaves the graph and the
pending worklist completely unchanged — the contents of an existing
entry never change. -/
theorem occupied_entry_never_updated {F : Type} [LurkField F]
    (store : Store F) (s : ScalarStore F) (pending : List (ScalarPtr F))
    (ptr : Ptr F) (sp : ScalarPtr F)
    (h : (s.scalar_map.lookup sp).isSome = true) :
    ScalarStore.add store s pending ptr sp = .ok (s, pending) := by
  unfold ScalarStore.add
  cases hl : s.scalar_map.lookup sp with
  | some w => rfl
  | none => rw [hl] at h; exact Bool.noConfusion h

/-- C2, witness for the amended claim at a concrete input. -/
theorem occupied_entry_never_updated_witness :
    ScalarStore.add wStore wOpaqueS [] wCons waCons = .ok (wOpaqueS, []) :=
  occupied_entry_never_updated wStore wOpaqueS [] wCons waCons (by decide)

/-- C3, counterexample.  When the popped address has no live value in
the host store (`scalar_ptr_map` lookup fails), the claim says the
materializer inserts `a -> None`.  In fact `add_scalar_ptr` returns
without inserting anything: afterwards the address is not a key at all
(`lookup` gives `none`, not `some none`). -/
theorem unknown_address_counterexample :
    lookupList wStoreEmptyRev.scalarPtrMap waCons = none ∧
    (ScalarStore.addScalarPtr wStoreEmptyRev ScalarStore.empty [] waCons).map
      (fun r => (r.1.scalar_map.entries, r.2)) = .ok ([], []) := by
  exact ⟨rfl, rfl⟩

/-- C3, amended: when the host store has no live value whose content
address is the popped pointer, the materializer skips it entirely — the
snapshot graph and the pending worklist are returned unchanged, and in
particular no `None` entry is created.  (`None` entries are created by
`add` instead, when a live pointer exists but its preimage conversion
fails.) -/
theorem unknown_address_skips_insertion {F : Type} [LurkField F]
    (store : Store F) (s : ScalarStore F) (pending : List (ScalarPtr F))
    (sp : ScalarPtr F) (h : lookupList store.scalarPtrMap sp = none) :
    ScalarStore.addScalarPtr store s pending sp = .ok (s, pending) := by
  unfold ScalarStore.addScalarPtr
  rw [h]

/-- C3, witness for the amended claim at a concrete input. -/
theorem unknown_address_skips_insertion_witness :
    ScalarStore.addScalarPtr wStoreEmptyRev ScalarStore.empty [] waCons =
      .ok (ScalarStore.empty, []) :=
  unknown_address_skips_insertion wStoreEmptyRev ScalarStore.empty [] waCons
    rfl

/-- C4: insertion is idempotent and opacity transitions are monotone.
An address already mapped to a non-`None` payload keeps exactly that
payload across any further `add` call and across any run of the
worklist loop; in particular a resolved entry is never overwritten,
never demoted to `None`, and never changed to a different payload. -/
theorem insertion_idempotent_and_monotone {F : Type} [LurkField F]
    (store : Store F) (s : ScalarStore F) (pending : List (ScalarPtr F))
    (k : ScalarPtr F) (e : ScalarExpression F)
    (hk : s.scalar_map.lookup k = some (some e)) :
    (∀ ptr sp s2 p2,
      ScalarStore.add store s pending ptr sp = .ok (s2, p2) →
      s2.scalar_map.lookup k = some (some e)) ∧
    (∀ fuel s3 p3,
      ScalarStore.runPending store fuel s pending = .ok (s3, p3) →
      s3.scalar_map.lookup k = some (some e)) :=
  ⟨fun _ _ _ _ h => add_preserves_entry h hk,
    fun _ _ _ h => runPending_preserves_entry h hk⟩

/-- C4, witness: a concrete `add` on a graph holding a resolved numeric
entry leaves that entry intact. -/
theorem insertion_idempotent_and_monotone_witness :
    wAddedS.scalar_map.lookup waNum1 = some (some (ScalarExpression.Num 1)) :=
  (insertion_idempotent_and_monotone wStore wResolvedS [] waNum1
    (ScalarExpression.Num 1) (by decide)).1 wCons waCons wAddedS
    [waNum2, waNum1] rfl

/-- C7: the flat field encodings of the `Nil`, `Sym` and `Str`
expression variants and of the `Outermost`, `Error`, `Dummy` and
`Terminal` continuation variants are explicit failures (the `todo!()`
panics of the source, modelled as `none`), for every value of those
variants. -/
theorem unimplemented_flat_encodings_fail {F : Type} [LurkField F] :
    (ScalarExpression.Nil : ScalarExpression F).serF = none ∧
    (∀ s : String, (ScalarExpression.Sym s : ScalarExpression F).serF =
      none) ∧
    (∀ s : String, (ScalarExpression.Str s : ScalarExpression F).serF =
      none) ∧
    (ScalarContinuation.Outermost : ScalarContinuation F).serF = none ∧
    (ScalarContinuation.Error : ScalarContinuation F).serF = none ∧
    (ScalarContinuation.Dummy : ScalarContinuation F).serF = none ∧
    (ScalarContinuation.Terminal : ScalarContinuation F).serF = none :=
  ⟨rfl, fun _ => rfl, fun _ => rfl, rfl, rfl, rfl, rfl⟩

/-- C8: over the concrete 32-byte field model (the byte width of the
bls12-381 scalar field the repository uses), `char_to_f` fails for
every char — `copy_from_slice` is handed a 4-byte source and a 32-byte
destination, which panics — so the flat encoding of a `Char` payload
never returns a field sequence, contradicting the claim that it
succeeds with a single field element. -/
theorem char_flat_encoding_panics :
    ∀ c : Char, (char_to_f c : Option F32) = none ∧
      (ScalarExpression.Char c : ScalarExpression F32).serF = none :=
  fun _ => ⟨rfl, rfl⟩

/-- C10: materialization from an expression root never populates the
continuation map — every insertion performed by `new_with_expr` targets
the expression map, so the continuation map of the returned snapshot
graph is empty. -/
theorem newWithExpr_cont_map_empty {F : Type} [LurkField F]
    (store : Store F) (expr : Ptr F) (s : ScalarStore F)
    (r : Option (ScalarPtr F))
    (h : ScalarStore.newWithExpr store expr = .ok (s, r)) :
    s.scalar_cont_map.entries = [] := by
  unfold ScalarStore.newWithExpr ScalarStore.addOnePtr at h
  cases hap : ScalarStore.addPtr store ScalarStore.empty [] expr with
  | error e => rw [hap] at h; exact Except.noConfusion h
  | ok r0 =>
    rw [hap] at h
    obtain ⟨r1, sp1⟩ := r0
    unfold ScalarStore.finalizeStore ScalarStore.addPendingScalarPtrs at h
    dsimp only at h
    cases hrp : ScalarStore.runPending store
        (ScalarStore.pendingFuel store r1.1 r1.2) r1.1 r1.2 with
    | error e => rw [hrp] at h; exact Except.noConfusion h
    | ok r2 =>
      rw [hrp] at h
      simp only [Except.map, Except.ok.injEq, Prod.mk.injEq] at h
      have hc1 : r2.1.scalar_cont_map = r1.1.scalar_cont_map := by
        obtain ⟨s3, p3⟩ := r2
        exact runPending_cont_map_eq hrp
      have hc2 : r1.1.scalar_cont_map = ScalarStore.empty.scalar_cont_map :=
        addPtr_cont_map_eq hap
      rw [← h.1, hc1, hc2]
      rfl

/-- C10, witness: the concrete materialization of `(1 . 2)` from
`wStore` has an empty continuation map. -/
theorem newWithExpr_cont_map_empty_witness :
    wFinalS.scalar_cont_map.entries = [] :=
  newWithExpr_cont_map_empty wStore wCons wFinalS (some waCons) rfl

section Termination

theorem mem_keys_insertSortedList {K V : Type} [LinearOrder K]
    {k x : K} {v : V} {l : List (K × V)} :
    x ∈ (insertSortedList k v l).map Prod.fst ↔
      x = k ∨ x ∈ l.map Prod.fst := by
  induction l with
  | nil => simp [insertSortedList]
  | cons a t ih =>
    obtain ⟨a1, a2⟩ := a
    simp only [insertSortedList]
    by_cases h1 : k < a1
    · rw [if_pos h1]
      simp only [List.map_cons, List.mem_cons]
    · rw [if_neg h1]
      by_cases h2 : k = a1
      · rw [if_pos h2]
        subst h2
        simp only [List.map_cons, List.mem_cons]
        tauto
      · rw [if_neg h2]
        simp only [List.map_cons, List.mem_cons, ih]
        tauto

theorem keysFinset_insert (s : ScalarStore F) (sp : ScalarPtr F)
    (v : Option (ScalarExpression F)) :
    ({ s with scalar_map := s.scalar_map.insert sp v } :
      ScalarStore F).keysFinset = insert sp s.keysFinset := by
  unfold ScalarStore.keysFinset
  apply Finset.ext
  intro x
  rw [List.mem_toFinset, Finset.mem_insert, List.mem_toFinset]
  exact mem_keys_insertSortedList

theorem mem_spmDom_of_lookup {store : Store F} {sp : ScalarPtr F}
    {ptr : Ptr F} (h : lookupList store.scalarPtrMap sp = some ptr) :
    sp ∈ store.spmDom := by
  unfold Store.spmDom
  rw [List.mem_toFinset]
  exact List.mem_map_of_mem Prod.fst (lookupList_eq_some_mem h)

theorem not_mem_keysFinset {s : ScalarStore F} {sp : ScalarPtr F}
    (h : s.scalar_map.lookup sp = none) : sp ∉ s.keysFinset := by
  unfold ScalarStore.keysFinset
  rw [List.mem_toFinset]
  intro hmem
  have h2 := (SMap.lookup_isSome_iff s.scalar_map sp).mpr hmem
  rw [h] at h2
  exact Bool.noConfusion h2

theorem sdiff_card_decrease {α : Type} [DecidableEq α] {A B : Finset α}
    {a : α} (hA : a ∈ A) (hB : a ∉ B) :
    (A \ insert a B).card + 1 = (A \ B).card := by
  have h1 : A \ insert a B = (A \ B).erase a := by
    apply Finset.ext
    intro x
    simp only [Finset.mem_sdiff, Finset.mem_insert, Finset.mem_erase,
      not_or]
    tauto
  have h2 : a ∈ A \ B := Finset.mem_sdiff.mpr ⟨hA, hB⟩
  rw [h1, Finset.card_erase_of_mem h2]
  have h3 := Finset.card_pos.mpr ⟨a, h2⟩
  omega

/-- Each iteration of the worklist loop strictly decreases the fuel
measure: either the popped pointer is dropped or already present (the
pending list shrinks), or a new key of the reverse map is inserted
(which pays for at most three queued children). -/
theorem addScalarPtr_fuel_decrease {store : Store F} {s : ScalarStore F}
    {rest p2 : List (ScalarPtr F)} {sp : ScalarPtr F} {s2 : ScalarStore F}
    (h : ScalarStore.addScalarPtr store s rest sp = Except.ok (s2, p2)) :
    ScalarStore.pendingFuel store s2 p2 <
      ScalarStore.pendingFuel store s (sp :: rest) := by
  unfold ScalarStore.addScalarPtr at h
  cases hspm : lookupList store.scalarPtrMap sp with
  | none =>
    rw [hspm] at h
    simp only [Except.ok.injEq, Prod.mk.injEq] at h
    rw [← h.1, ← h.2]
    simp only [ScalarStore.pendingFuel, List.length_cons]
    omega
  | some ptr =>
    rw [hspm] at h
    dsimp only at h
    unfold ScalarStore.add at h
    cases hl : s.scalar_map.lookup sp with
    | some w =>
      rw [hl] at h
      simp only [Except.ok.injEq, Prod.mk.injEq] at h
      rw [← h.1, ← h.2]
      simp only [ScalarStore.pendingFuel, List.length_cons]
      omega
    | none =>
      rw [hl] at h
      have hDom : sp ∈ store.spmDom := mem_spmDom_of_lookup hspm
      have hKeys : sp ∉ s.keysFinset := not_mem_keysFinset hl
      have hCard := sdiff_card_decrease hDom hKeys
      cases hf : ScalarExpression.fromPtr store ptr with
      | error e => rw [hf] at h; exact Except.noConfusion h
      | ok oe =>
        rw [hf] at h
        cases oe with
        | none =>
          simp only [Except.ok.injEq, Prod.mk.injEq] at h
          rw [← h.1, ← h.2]
          simp only [ScalarStore.pendingFuel, List.length_cons,
            keysFinset_insert]
          omega
        | some e =>
          simp only [Except.ok.injEq, Prod.mk.injEq] at h
          rw [← h.1, ← h.2]
          simp only [ScalarStore.pendingFuel, List.length_cons,
            keysFinset_insert, List.length_append, List.length_reverse]
          have hch : (match childScalarPtrs e with
              | some more_scalar_ptrs => more_scalar_ptrs
              | none => []).length ≤ 3 := by
            cases e <;> simp [childScalarPtrs]
          omega

/-- Raising the fuel of an already sufficient run by one does not change
the result. -/
theorem runPending_fuel_succ {store : Store F} :
    ∀ (fuel : Nat) (s : ScalarStore F) (pending : List (ScalarPtr F)),
    ScalarStore.pendingFuel store s pending ≤ fuel →
    ScalarStore.runPending store (fuel + 1) s pending =
      ScalarStore.runPending store fuel s pending := by
  intro fuel
  induction fuel with
  | zero =>
    intro s pending hle
    cases pending with
    | nil => rfl
    | cons a t =>
      exfalso
      simp only [ScalarStore.pendingFuel, List.length_cons,
        Nat.le_zero] at hle
      omega
  | succ g ih =>
    intro s pending hle
    cases pending with
    | nil => rfl
    | cons a t =>
      show (match ScalarStore.addScalarPtr store s t a with
        | .error e => Except.error e
        | .ok (s2, pending2) =>
          ScalarStore.runPending store (g + 1) s2 pending2) =
        (match ScalarStore.addScalarPtr store s t a with
        | .error e => Except.error e
        | .ok (s2, pending2) => ScalarStore.runPending store g s2 pending2)
      cases hst : ScalarStore.addScalarPtr store s t a with
      | error e => rfl
      | ok r =>
        obtain ⟨s2, p2⟩ := r
        have hdec := addScalarPtr_fuel_decrease hst
        exact ih s2 p2 (by omega)

/-- Any fuel at least the bound gives the same result as the bound. -/
theorem runPending_fuel_stable {store : Store F}
    (s : ScalarStore F) (pending : List (ScalarPtr F)) :
    ∀ m, ScalarStore.pendingFuel store s pending ≤ m →
    ScalarStore.runPending store m s pending =
      ScalarStore.runPending store
        (ScalarStore.pendingFuel store s pending) s pending := by
  have key : ∀ k, ScalarStore.runPending store
      (ScalarStore.pendingFuel store s pending + k) s pending =
      ScalarStore.runPending store
        (ScalarStore.pendingFuel store s pending) s pending := by
    intro k
    induction k with
    | zero => rfl
    | succ n ih =>
      have h1 := @runPending_fuel_succ F _ store
        (ScalarStore.pendingFuel store s pending + n) s
        pending (by omega)
      have h2 : ScalarStore.pendingFuel store s pending + (n + 1) =
          ScalarStore.pendingFuel store s pending + n + 1 := by omega
      rw [h2, h1, ih]
  intro m hm
  have : m = ScalarStore.pendingFuel store s pending +
      (m - ScalarStore.pendingFuel store s pending) := by omega
  rw [this]
  exact key _

/-- With sufficient fuel the worklist loop drains the pending list. -/
theorem runPending_drains {store : Store F} :
    ∀ (fuel : Nat) (s : ScalarStore F) (pending : List (ScalarPtr F)),
    ScalarStore.pendingFuel store s pending ≤ fuel →
    ∀ s2 p2, ScalarStore.runPending store fuel s pending =
      Except.ok (s2, p2) → p2 = [] := by
  intro fuel
  induction fuel with
  | zero =>
    intro s pending hle s2 p2 h
    cases pending with
    | nil =>
      simp only [ScalarStore.runPending, Except.ok.injEq,
        Prod.mk.injEq] at h
      exact h.2.symm
    | cons a t =>
      exfalso
      simp only [ScalarStore.pendingFuel, List.length_cons,
        Nat.le_zero] at hle
      omega
  | succ g ih =>
    intro s pending hle s2 p2 h
    cases pending with
    | nil =>
      simp only [ScalarStore.runPending, Except.ok.injEq,
        Prod.mk.injEq] at h
      exact h.2.symm
    | cons a t =>
      simp only [ScalarStore.runPending] at h
      cases hst : ScalarStore.addScalarPtr store s t a with
      | error e => rw [hst] at h; exact Except.noConfusion h
      | ok r =>
        rw [hst] at h
        obtain ⟨s3, p3⟩ := r
        have hdec := addScalarPtr_fuel_decrease hst
        exact ih s3 p3 (by omega) s2 p2 h

end Termination

/-- C9: the worklist loop of the materializer terminates.  The loop is
embedded with a fuel parameter; `pendingFuel` is a sufficient bound
(finitely many distinct content addresses exist in the host store
reverse map, and each is inserted into the graph at most once, each
insertion paying for at most three queued children).  Formally: every
fuel at least the bound computes the same result as the bound — so the
fuelled embedding has reached the fixed point of the loop — and the
result
at the bound, when it is not the `Thunk` panic, carries a fully drained
pending list. -/
theorem worklist_loop_terminates {F : Type} [LurkField F]
    (store : Store F) (s : ScalarStore F) (pending : List (ScalarPtr F))
    (m : Nat) (hm : ScalarStore.pendingFuel store s pending ≤ m) :
    ScalarStore.runPending store m s pending =
      ScalarStore.runPending store
        (ScalarStore.pendingFuel store s pending) s pending ∧
    ∀ s2 p2, ScalarStore.runPending store
        (ScalarStore.pendingFuel store s pending) s pending =
        Except.ok (s2, p2) → p2 = [] :=
  ⟨runPending_fuel_stable s pending m hm,
    runPending_drains _ s pending (Nat.le_refl _)⟩

/-- C9, witness: a concrete run from the empty graph with one pending
address, at a fuel above the bound. -/
theorem worklist_loop_terminates_witness :
    ScalarStore.runPending wStore 11 ScalarStore.empty [waCons] =
      ScalarStore.runPending wStore
        (ScalarStore.pendingFuel wStore ScalarStore.empty [waCons])
        ScalarStore.empty [waCons] ∧
    ([] : List (ScalarPtr F32)) = [] := by
  have h := worklist_loop_terminates wStore ScalarStore.empty [waCons] 11
    (by decide)
  exact ⟨h.1, h.2 wFinalS [] rfl⟩

section Determinism

variable {K V : Type} [LinearOrder K]

theorem lookup_foldl_insert_of_not_mem {l : List (K × V)} {k : K}
    (h : k ∉ l.map Prod.fst) (acc : SMap K V) :
    (l.foldl (fun m e => m.insert e.1 e.2) acc).lookup k = acc.lookup k := by
  induction l generalizing acc with
  | nil => rfl
  | cons e t ih =>
    simp only [List.map_cons, List.mem_cons, not_or] at h
    simp only [List.foldl_cons]
    rw [ih h.2, SMap.lookup_insert_ne acc h.1 e.2]

theorem lookup_foldl_insert_of_mem {l : List (K × V)} {k : K} {v : V}
    (hnd : (l.map Prod.fst).Nodup) (hmem : (k, v) ∈ l) (acc : SMap K V) :
    (l.foldl (fun m e => m.insert e.1 e.2) acc).lookup k = some v := by
  induction l generalizing acc with
  | nil => exact absurd hmem (List.not_mem_nil _)
  | cons e t ih =>
    simp only [List.map_cons, List.nodup_cons] at hnd
    simp only [List.foldl_cons]
    rcases List.mem_cons.mp hmem with h | h
    · have hk : k ∉ t.map Prod.fst := by
        rw [← h] at hnd
        exact hnd.1
      rw [lookup_foldl_insert_of_not_mem hk, ← h,
        SMap.lookup_insert_self acc k v]
    · exact ih hnd.2 h _

theorem ofList_eq_of_perm {l1 l2 : List (K × V)} (hperm : l1.Perm l2)
    (hnd : (l1.map Prod.fst).Nodup) :
    SMap.ofList l1 = SMap.ofList l2 := by
  have hnd2 : (l2.map Prod.fst).Nodup := (hperm.map Prod.fst).nodup hnd
  apply SMap.lookup_ext
  intro k
  by_cases hk : k ∈ l1.map Prod.fst
  · obtain ⟨e, he, hek⟩ := List.mem_map.mp hk
    obtain ⟨k0, v⟩ := e
    cases hek
    rw [SMap.ofList, SMap.ofList,
      lookup_foldl_insert_of_mem hnd he,
      lookup_foldl_insert_of_mem hnd2 (hperm.mem_iff.mp he)]
  · have hk2 : k ∉ l2.map Prod.fst := fun hm =>
      hk ((hperm.map Prod.fst).mem_iff.mpr hm)
    rw [SMap.ofList, SMap.ofList,
      lookup_foldl_insert_of_not_mem hk,
      lookup_foldl_insert_of_not_mem hk2]

end Determinism

section MapValues

variable {K V W : Type} [LinearOrder K]

/-- Mapping the payloads of an ordered map, keys unchanged. -/
def SMap.mapValues (m : SMap K V) (f : V → W) : SMap K W :=
  ⟨m.entries.map (fun e => (e.1, f e.2)), by
    rw [List.pairwise_map]
    exact m.sorted⟩

theorem insertSortedList_map_values (f : V → W) (k : K) (v : V) :
    ∀ l : List (K × V),
    (insertSortedList k v l).map (fun e => (e.1, f e.2)) =
      insertSortedList k (f v) (l.map (fun e => (e.1, f e.2)))
  | [] => by simp [insertSortedList]
  | (a, b) :: t => by
    by_cases h1 : k < a
    · simp [insertSortedList, h1]
    · by_cases h2 : k = a
      · simp [insertSortedList, h1, h2]
      · simp [insertSortedList, h1, h2,
          insertSortedList_map_values f k v t]

theorem mapValues_insert (m : SMap K V) (f : V → W) (k : K) (v : V) :
    (m.insert k v).mapValues f = (m.mapValues f).insert k (f v) :=
  SMap.ext' (insertSortedList_map_values f k v m.entries)

theorem mapValues_empty (f : V → W) :
    (SMap.empty : SMap K V).mapValues f = SMap.empty :=
  SMap.ext' rfl

theorem mem_entries_foldl_insert {l : List (K × V)} :
    ∀ {acc : SMap K V} {e : K × V},
    e ∈ (l.foldl (fun m x => m.insert x.1 x.2) acc).entries →
    e ∈ acc.entries ∨ e ∈ l := by
  induction l with
  | nil =>
    intro acc e h
    exact Or.inl h
  | cons x t ih =>
    intro acc e h
    simp only [List.foldl_cons] at h
    rcases ih h with h2 | h2
    · rcases mem_insertSortedList h2 with h3 | h3
      · refine Or.inr ?_
        rw [h3]
        exact List.mem_cons_self _ _
      · exact Or.inl h3
    · exact Or.inr (List.mem_cons_of_mem _ h2)

end MapValues

section SerFEq

/-- The per-entry step of `ser_f` on the merged representation: encode
the payload, then insert the encoding under the unified key. -/
def serFStep (m : SMap (UPtr F) (List F)) (e : UPtr F × UPayload F) :
    Option (SMap (UPtr F) (List F)) := do
  let fs ← e.2.fields
  pure (m.insert e.1 fs)

/-- The defined (non-panicking) payload encoding, with a default for the
impossible case. -/
def encD (pay : UPayload F) : List F :=
  (pay.fields).getD []

/-- The flat sequence emitted for a list of merged entries. -/
def flatEmit : List (UPtr F × UPayload F) → List F
  | [] => []
  | e :: t => e.1.tag :: e.1.value :: (encD e.2 ++ flatEmit t)

theorem foldlM_serFStep_eq :
    ∀ (L : List (UPtr F × UPayload F)),
    (∀ e ∈ L, (UPayload.fields e.2).isSome = true) →
    ∀ accP : SMap (UPtr F) (UPayload F),
    List.foldlM serFStep (accP.mapValues encD) L =
      some ((L.foldl (fun m e => m.insert e.1 e.2) accP).mapValues encD) := by
  intro L
  induction L with
  | nil =>
    intro hok accP
    simp
  | cons e t ih =>
    intro hok accP
    have he : (UPayload.fields e.2).isSome = true :=
      hok e (List.mem_cons_self _ _)
    obtain ⟨fs, hfs⟩ := Option.isSome_iff_exists.mp he
    have henc : encD e.2 = fs := by
      rw [encD, hfs]
      rfl
    have hstep : serFStep (accP.mapValues encD) e =
        some ((accP.insert e.1 e.2).mapValues encD) := by
      unfold serFStep
      rw [hfs, mapValues_insert, henc]
      rfl
    rw [List.foldlM_cons, hstep]
    have hbind : (some ((accP.insert e.1 e.2).mapValues encD) >>=
        fun b2 => List.foldlM serFStep b2 t) =
        List.foldlM serFStep ((accP.insert e.1 e.2).mapValues encD) t := rfl
    rw [hbind]
    exact ih (fun x hx => hok x (List.mem_cons_of_mem _ hx)) _

theorem emitEntries_eq_flatEmit :
    ∀ entries : List (UPtr F × UPayload F),
    (∀ e ∈ entries, (UPayload.fields e.2).isSome = true) →
    emitEntries entries = some (flatEmit entries) := by
  intro entries
  induction entries with
  | nil => intro _; rfl
  | cons e t ih =>
    intro hok
    have he : (UPayload.fields e.2).isSome = true :=
      hok e (List.mem_cons_self _ _)
    obtain ⟨fs, hfs⟩ := Option.isSome_iff_exists.mp he
    have henc : encD e.2 = fs := by
      rw [encD, hfs]
      rfl
    obtain ⟨u, pay⟩ := e
    show (do
      let fs2 ← pay.fields
      let rest ← emitEntries t
      pure (u.tag :: u.value :: fs2 ++ rest)) = _
    rw [show pay.fields = some fs from hfs,
      ih (fun x hx => hok x (List.mem_cons_of_mem _ hx))]
    show some (u.tag :: u.value :: fs ++ flatEmit t) = _
    rw [flatEmit]
    simp only at henc
    rw [henc]
    rfl

theorem foldl_emit_eq_flatEmit :
    ∀ (entries : List (UPtr F × UPayload F)) (res : List F),
    (entries.map (fun e => (e.1, encD e.2))).foldl
      (fun r e => r ++ e.1.tag :: e.1.value :: e.2) res =
      res ++ flatEmit entries := by
  intro entries
  induction entries with
  | nil =>
    intro res
    simp [flatEmit]
  | cons e t ih =>
    intro res
    simp only [List.map_cons, List.foldl_cons, flatEmit]
    rw [ih]
    simp

end SerFEq

/-- C5: the flat canonical serialization follows the specified
procedure.  Whenever every payload has a defined flat encoding, `ser_f`
equals the spec-shaped serialization: merge both maps into one map
keyed by the unified `(tag, digest)` pair, iterate it in ascending key
order, and emit the tag, the digest, then the payload encoding, where
an opaque `None` entry contributes exactly one zero field element;
moreover the merged entries are strictly ascending. -/
theorem serF_matches_spec {F : Type} [LurkField F] (s : ScalarStore F)
    (h : s.allEncodable) :
    s.serF = s.serFSpec ∧
      s.mergedMap.entries.Pairwise (fun a b => a.1 < b.1) := by
  refine ⟨?_, s.mergedMap.sorted⟩
  obtain ⟨hok1, hok2⟩ := h
  have hokL1 : ∀ e ∈ s.scalar_map.entries.map
        (fun e => (UPtr.ofExpr e.1, UPayload.expr e.2)),
      (UPayload.fields e.2).isSome = true := by
    intro e he
    obtain ⟨x, hx, hxe⟩ := List.mem_map.mp he
    rw [← hxe]
    exact hok1 x hx
  have hokL2 : ∀ e ∈ s.scalar_cont_map.entries.map
        (fun e => (UPtr.ofCont e.1, UPayload.cont e.2)),
      (UPayload.fields e.2).isSome = true := by
    intro e he
    obtain ⟨x, hx, hxe⟩ := List.mem_map.mp he
    rw [← hxe]
    exact hok2 x hx
  have hfold1 := foldlM_serFStep_eq _ hokL1 SMap.empty
  rw [mapValues_empty] at hfold1
  have hfold2 := foldlM_serFStep_eq _ hokL2
    ((s.scalar_map.entries.map
      (fun e => (UPtr.ofExpr e.1, UPayload.expr e.2))).foldl
        (fun m e => m.insert e.1 e.2) SMap.empty)
  have hM : s.mergedMap =
      ((s.scalar_cont_map.entries.map
        (fun e => (UPtr.ofCont e.1, UPayload.cont e.2))).foldl
          (fun m e => m.insert e.1 e.2)
        ((s.scalar_map.entries.map
          (fun e => (UPtr.ofExpr e.1, UPayload.expr e.2))).foldl
            (fun m e => m.insert e.1 e.2) SMap.empty)) := by
    unfold ScalarStore.mergedMap SMap.ofList
    rw [List.foldl_append]
  have hentries : ∀ e ∈ s.mergedMap.entries,
      (UPayload.fields e.2).isSome = true := by
    intro e he
    rw [hM] at he
    rcases mem_entries_foldl_insert he with h2 | h2
    · rcases mem_entries_foldl_insert h2 with h3 | h3
      · exact absurd h3 (List.not_mem_nil e)
      · exact hokL1 e h3
    · exact hokL2 e h2
  have hA : List.foldlM serFStep (SMap.empty : SMap (UPtr F) (List F))
      (s.scalar_map.entries.map
        (fun e => (UPtr.ofExpr e.1, UPayload.expr e.2))) =
      s.scalar_map.entries.foldlM
        (fun m e => do
          let fs ← exprPayloadF e.2
          pure (m.insert (UPtr.ofExpr e.1) fs)) SMap.empty := by
    rw [List.foldlM_map]
    rfl
  have hB : ∀ m1 : SMap (UPtr F) (List F),
      List.foldlM serFStep m1
        (s.scalar_cont_map.entries.map
          (fun e => (UPtr.ofCont e.1, UPayload.cont e.2))) =
      s.scalar_cont_map.entries.foldlM
        (fun m e => do
          let fs ← contPayloadF e.2
          pure (m.insert (UPtr.ofCont e.1) fs)) m1 := by
    intro m1
    rw [List.foldlM_map]
    rfl
  unfold ScalarStore.serF
  rw [← hA]
  simp only [← hB]
  rw [hfold1]
  have hred1 : ∀ (x : SMap (UPtr F) (List F))
      (g : SMap (UPtr F) (List F) → Option (List F)),
      (some x >>= g) = g x := fun _ _ => rfl
  rw [hred1]
  rw [hfold2, hred1]
  unfold ScalarStore.serFSpec
  rw [emitEntries_eq_flatEmit _ hentries, hM]
  have hmv : ∀ m : SMap (UPtr F) (UPayload F),
      (m.mapValues encD).entries =
        m.entries.map (fun e => (e.1, encD e.2)) := fun _ => rfl
  rw [hmv, foldl_emit_eq_flatEmit, List.nil_append]
  rfl

/-- C5, witness: the procedure equality evaluated on the concrete
materialized graph of `(1 . 2)`, whose payloads are all encodable. -/
theorem serF_matches_spec_witness :
    wFinalS.serF = wFinalS.serFSpec ∧
      wFinalS.mergedMap.entries.Pairwise (fun a b => a.1 < b.1) :=
  serF_matches_spec wFinalS (by decide)


/-- C6: the flat canonical serialization is deterministic.  Two snapshot
graphs with identical key-to-payload contents (pointwise equal lookups
in both maps) serialize identically, and in particular building the two
graphs by inserting the same entries in any two orders (permutations
with no duplicate keys) gives identical flat sequences. -/
theorem serF_deterministic {F : Type} [LurkField F] :
    (∀ s1 s2 : ScalarStore F,
      (∀ k, s1.scalar_map.lookup k = s2.scalar_map.lookup k) →
      (∀ q, s1.scalar_cont_map.lookup q = s2.scalar_cont_map.lookup q) →
      s1.serF = s2.serF) ∧
    (∀ (l1 l2 : List (ScalarPtr F × Option (ScalarExpression F)))
      (c1 c2 : List (ScalarContPtr F × Option (ScalarContinuation F))),
      l1.Perm l2 → (l1.map Prod.fst).Nodup →
      c1.Perm c2 → (c1.map Prod.fst).Nodup →
      ScalarStore.serF ⟨SMap.ofList l1, SMap.ofList c1⟩ =
        ScalarStore.serF ⟨SMap.ofList l2, SMap.ofList c2⟩) := by
  constructor
  · intro s1 s2 hm hc
    obtain ⟨m1, q1⟩ := s1
    obtain ⟨m2, q2⟩ := s2
    have e1 : m1 = m2 := SMap.lookup_ext hm
    have e2 : q1 = q2 := SMap.lookup_ext hc
    rw [e1, e2]
  · intro l1 l2 c1 c2 hl hndl hc hndc
    rw [ofList_eq_of_perm hl hndl, ofList_eq_of_perm hc hndc]

section Completeness

/-- Stated from the spec payload table: the expression content addresses
listed as children of a payload — car/cdr of `Cons`, payload of `Comm`,
arg/body/closed_env of `Fun`, value of `Thunk`. -/
def specChildExprAddrs (e : ScalarExpression F) : List (ScalarPtr F) :=
  match e with
  | ScalarExpression.Nil => []
  | ScalarExpression.Cons car cdr => [car, cdr]
  | ScalarExpression.Comm _ payload => [payload]
  | ScalarExpression.Sym _ => []
  | ScalarExpression.Fun arg body closed_env => [arg, body, closed_env]
  | ScalarExpression.Num _ => []
  | ScalarExpression.Str _ => []
  | ScalarExpression.Thunk t => [t.value]
  | ScalarExpression.Char _ => []

/-- Stated from the spec payload table: the continuation content
addresses listed as children of an expression payload — the
continuation of `Thunk`. -/
def specChildContAddrs (e : ScalarExpression F) : List (ScalarContPtr F) :=
  match e with
  | ScalarExpression.Thunk t => [t.continuation]
  | _ => []

/-- The child list the materializer actually queues (the `Some` branch
of `child_scalar_ptrs`, defaulting to the empty list). -/
def childListD (e : ScalarExpression F) : List (ScalarPtr F) :=
  match childScalarPtrs e with
  | some l => l
  | none => []

/-- An address is hashed when some live pointer resolves to it through
`get_expr_hash`. -/
def Hashed (store : Store F) (sp : ScalarPtr F) : Prop :=
  ∃ p, store.getExprHash p = some sp

/-- Modelled from the spec: the hydration precondition of section 6 —
before materialization the host store has completed its hash-cache
warm-up, so every content address produced by `get_expr_hash` has a
live pointer in the reverse map `scalar_ptr_map`. -/
def Store.hydrated (store : Store F) : Prop :=
  ∀ e ∈ store.exprHashList,
    (lookupList store.scalarPtrMap e.2).isSome = true

instance (store : Store F) : Decidable store.hydrated := by
  unfold Store.hydrated
  infer_instance

theorem hydrated_lookup_isSome {store : Store F} {sp : ScalarPtr F}
    (hhyd : store.hydrated) (hh : Hashed store sp) :
    (lookupList store.scalarPtrMap sp).isSome = true := by
  obtain ⟨p, hp⟩ := hh
  exact hhyd (p, sp) (lookupList_eq_some_mem hp)

/-- Completeness of one entry payload with respect to the payload table
of the spec. -/
def entryComplete (s : ScalarStore F) (v : Option (ScalarExpression F)) :
    Prop :=
  match v with
  | none => True
  | some e =>
    (∀ c ∈ specChildExprAddrs e, (s.scalar_map.lookup c).isSome = true) ∧
    (∀ q ∈ specChildContAddrs e, (s.scalar_cont_map.lookup q).isSome = true)

instance (s : ScalarStore F) (v : Option (ScalarExpression F)) :
    Decidable (entryComplete s v) := by
  unfold entryComplete
  cases v with
  | none => infer_instance
  | some e => infer_instance

/-- Traversal completeness of a snapshot graph: every content address
occurring as a child (per the spec payload table) inside any `Some`
payload is itself a key of the appropriate map. -/
def ScalarStore.complete (s : ScalarStore F) : Prop :=
  ∀ ent ∈ s.scalar_map.entries, entryComplete s ent.2

instance (s : ScalarStore F) : Decidable s.complete := by
  unfold ScalarStore.complete
  infer_instance

/-- The loop invariant of the materialization: every pending address is
hashed, and every resolved payload is a non-`Thunk` whose queued
children are each either already a key or still pending. -/
def Inv (store : Store F) (s : ScalarStore F)
    (pending : List (ScalarPtr F)) : Prop :=
  (∀ sp ∈ pending, Hashed store sp) ∧
  (∀ sp e, s.scalar_map.lookup sp = some (some e) →
    (∀ t, e ≠ ScalarExpression.Thunk t) ∧
    ∀ c ∈ childListD e,
      (s.scalar_map.lookup c).isSome = true ∨ c ∈ pending)

omit [LurkField F] in
theorem specChildExprAddrs_eq_childListD {e : ScalarExpression F}
    (h : ∀ t, e ≠ ScalarExpression.Thunk t) :
    specChildExprAddrs e = childListD e := by
  cases e with
  | Thunk t => exact absurd rfl (h t)
  | _ => rfl

omit [LurkField F] in
theorem specChildContAddrs_eq_nil {e : ScalarExpression F}
    (h : ∀ t, e ≠ ScalarExpression.Thunk t) :
    specChildContAddrs e = [] := by
  cases e with
  | Thunk t => exact absurd rfl (h t)
  | _ => rfl

/-- The key facts about a successful preimage conversion: the payload is
never a `Thunk` (that arm panics instead), and each of its queued
children was produced by `get_expr_hash`. -/
theorem fromPtr_ok_some_props {store : Store F} {ptr : Ptr F}
    {e : ScalarExpression F}
    (h : ScalarExpression.fromPtr store ptr = Except.ok (some e)) :
    (∀ t, e ≠ ScalarExpression.Thunk t) ∧
      ∀ c ∈ childListD e, Hashed store c := by
  obtain ⟨tag, raw⟩ := ptr
  unfold ScalarExpression.fromPtr at h
  cases tag with
  | nil =>
    simp only [Except.ok.injEq, Option.some.injEq] at h
    rw [← h]
    exact ⟨fun t ht => ScalarExpression.noConfusion ht,
      by intro c hc; simp [childListD, childScalarPtrs] at hc⟩
  | cons =>
    simp only [Except.ok.injEq] at h
    rw [Option.bind_eq_some] at h
    obtain ⟨cc, hcc, h2⟩ := h
    rw [Option.bind_eq_some] at h2
    obtain ⟨car, hcar, h3⟩ := h2
    rw [Option.map_eq_some'] at h3
    obtain ⟨cdr, hcdr, h4⟩ := h3
    rw [← h4]
    refine ⟨fun t ht => ScalarExpression.noConfusion ht, ?_⟩
    intro c hc
    simp only [childListD, childScalarPtrs, List.mem_cons,
      List.not_mem_nil, or_false] at hc
    rcases hc with hc | hc
    · exact ⟨cc.1, by rw [hc]; exact hcar⟩
    · exact ⟨cc.2, by rw [hc]; exact hcdr⟩
  | comm =>
    simp only [Except.ok.injEq] at h
    rw [Option.bind_eq_some] at h
    obtain ⟨sp0, hsp0, h2⟩ := h
    rw [Option.map_eq_some'] at h2
    obtain ⟨payload, hpay, h3⟩ := h2
    rw [← h3]
    refine ⟨fun t ht => ScalarExpression.noConfusion ht, ?_⟩
    intro c hc
    simp only [childListD, childScalarPtrs, List.mem_cons,
      List.not_mem_nil, or_false] at hc
    exact ⟨sp0.2, by rw [hc]; exact hpay⟩
  | sym =>
    simp only [Except.ok.injEq] at h
    rw [Option.map_eq_some'] at h
    obtain ⟨str, hstr, h2⟩ := h
    rw [← h2]
    exact ⟨fun t ht => ScalarExpression.noConfusion ht,
      by intro c hc; simp [childListD, childScalarPtrs] at hc⟩
  | fn =>
    simp only [Except.ok.injEq] at h
    rw [Option.bind_eq_some] at h
    obtain ⟨abe, habe, h2⟩ := h
    rw [Option.bind_eq_some] at h2
    obtain ⟨arg, harg, h3⟩ := h2
    rw [Option.bind_eq_some] at h3
    obtain ⟨body, hbody, h4⟩ := h3
    rw [Option.map_eq_some'] at h4
    obtain ⟨closed_env, hce, h5⟩ := h4
    rw [← h5]
    refine ⟨fun t ht => ScalarExpression.noConfusion ht, ?_⟩
    intro c hc
    simp only [childListD, childScalarPtrs, List.mem_cons,
      List.not_mem_nil, or_false] at hc
    rcases hc with hc | hc | hc
    · exact ⟨abe.1, by rw [hc]; exact harg⟩
    · exact ⟨abe.2.1, by rw [hc]; exact hbody⟩
    · exact ⟨abe.2.2, by rw [hc]; exact hce⟩
  | num =>
    simp only [Except.ok.injEq] at h
    rw [Option.map_eq_some'] at h
    obtain ⟨n, hn, h2⟩ := h
    cases n with
    | u64 x =>
      simp only at h2
      rw [← h2]
      exact ⟨fun t ht => ScalarExpression.noConfusion ht,
        by intro c hc; simp [childListD, childScalarPtrs] at hc⟩
    | scalar x =>
      simp only at h2
      rw [← h2]
      exact ⟨fun t ht => ScalarExpression.noConfusion ht,
        by intro c hc; simp [childListD, childScalarPtrs] at hc⟩
  | str =>
    simp only [Except.ok.injEq] at h
    rw [Option.map_eq_some'] at h
    obtain ⟨str, hstr, h2⟩ := h
    rw [← h2]
    exact ⟨fun t ht => ScalarExpression.noConfusion ht,
      by intro c hc; simp [childListD, childScalarPtrs] at hc⟩
  | char =>
    simp only [Except.ok.injEq] at h
    rw [Option.map_eq_some'] at h
    obtain ⟨c0, hc0, h2⟩ := h
    rw [← h2]
    exact ⟨fun t ht => ScalarExpression.noConfusion ht,
      by intro c hc; simp [childListD, childScalarPtrs] at hc⟩
  | thunk => exact Except.noConfusion h

theorem lookup_insert_isSome_mono {s : ScalarStore F} {c sp : ScalarPtr F}
    {v : Option (ScalarExpression F)}
    (h : (s.scalar_map.lookup c).isSome = true) :
    ((s.scalar_map.insert sp v).lookup c).isSome = true := by
  by_cases hc : c = sp
  · rw [hc, SMap.lookup_insert_self]
    rfl
  · rw [SMap.lookup_insert_ne _ hc]
    exact h

theorem sorted_lookup_of_mem {K V : Type} [LinearOrder K]
    {l : List (K × V)} {k : K} {v : V}
    (hs : l.Pairwise (fun a b => a.1 < b.1)) (h : (k, v) ∈ l) :
    lookupList l k = some v := by
  induction l with
  | nil => exact absurd h (List.not_mem_nil _)
  | cons a t ih =>
    obtain ⟨a1, a2⟩ := a
    rw [List.pairwise_cons] at hs
    rcases List.mem_cons.mp h with h2 | h2
    · injection h2 with h3 h4
      simp [lookupList, h3, h4]
    · have hk : k ≠ a1 := by
        intro he
        have := hs.1 (k, v) h2
        rw [he] at this
        exact absurd this (lt_irrefl _)
      simp only [lookupList, if_neg hk]
      exact ih hs.2 h2

theorem SMap.lookup_of_mem {K V : Type} [LinearOrder K] {m : SMap K V}
    {k : K} {v : V} (h : (k, v) ∈ m.entries) : m.lookup k = some v :=
  sorted_lookup_of_mem m.sorted h

/-- The invariant of the empty graph with an empty worklist. -/
theorem inv_empty (store : Store F) :
    Inv store ScalarStore.empty [] := by
  constructor
  · intro sp hsp
    exact absurd hsp (List.not_mem_nil _)
  · intro sp e hl
    exact Option.noConfusion hl

/-- One `add` call preserves the invariant when the popped pointer is
not separately accounted for (used for the root insertion). -/
theorem add_preserves_inv {store : Store F} {s : ScalarStore F}
    {pending p2 : List (ScalarPtr F)} {ptr : Ptr F} {sp : ScalarPtr F}
    {s2 : ScalarStore F}
    (hInv : Inv store s pending)
    (h : ScalarStore.add store s pending ptr sp = Except.ok (s2, p2)) :
    Inv store s2 p2 := by
  unfold ScalarStore.add at h
  cases hl : s.scalar_map.lookup sp with
  | some w =>
    rw [hl] at h
    simp only [Except.ok.injEq, Prod.mk.injEq] at h
    rw [← h.1, ← h.2]
    exact hInv
  | none =>
    rw [hl] at h
    cases hf : ScalarExpression.fromPtr store ptr with
    | error e => rw [hf] at h; exact Except.noConfusion h
    | ok oe =>
      rw [hf] at h
      cases oe with
      | none =>
        simp only [Except.ok.injEq, Prod.mk.injEq] at h
        rw [← h.1, ← h.2]
        refine ⟨hInv.1, ?_⟩
        intro k e hk
        by_cases hksp : k = sp
        · rw [hksp, SMap.lookup_insert_self] at hk
          exact Option.noConfusion (Option.some.inj hk)
        · rw [SMap.lookup_insert_ne _ hksp] at hk
          obtain ⟨hnt, hch⟩ := hInv.2 k e hk
          refine ⟨hnt, ?_⟩
          intro c hc
          rcases hch c hc with h2 | h2
          · exact Or.inl (lookup_insert_isSome_mono h2)
          · exact Or.inr h2
      | some e0 =>
        simp only [Except.ok.injEq, Prod.mk.injEq] at h
        obtain ⟨hnt0, hch0⟩ := fromPtr_ok_some_props hf
        have hchl : (match childScalarPtrs e0 with
            | some more_scalar_ptrs => more_scalar_ptrs
            | none => []) = childListD e0 := rfl
        rw [hchl] at h
        rw [← h.1, ← h.2]
        constructor
        · intro x hx
          rcases List.mem_append.mp hx with h2 | h2
          · exact hch0 x (List.mem_reverse.mp h2)
          · exact hInv.1 x h2
        · intro k e hk
          by_cases hksp : k = sp
          · rw [hksp, SMap.lookup_insert_self] at hk
            have he : e0 = e := Option.some.inj (Option.some.inj hk)
            rw [← he]
            refine ⟨hnt0, ?_⟩
            intro c hc
            exact Or.inr (List.mem_append.mpr
              (Or.inl (List.mem_reverse.mpr hc)))
          · rw [SMap.lookup_insert_ne _ hksp] at hk
            obtain ⟨hnt, hch⟩ := hInv.2 k e hk
            refine ⟨hnt, ?_⟩
            intro c hc
            rcases hch c hc with h2 | h2
            · exact Or.inl (lookup_insert_isSome_mono h2)
            · exact Or.inr (List.mem_append.mpr (Or.inr h2))

/-- One iteration of the worklist loop preserves the invariant: the
popped pointer is hashed, so under hydration it is found in the reverse
map and becomes (or already is) a key of the graph. -/
theorem addScalarPtr_preserves_inv {store : Store F} {s : ScalarStore F}
    {rest p2 : List (ScalarPtr F)} {sp : ScalarPtr F} {s2 : ScalarStore F}
    (hhyd : store.hydrated)
    (hInv : Inv store s (sp :: rest))
    (h : ScalarStore.addScalarPtr store s rest sp = Except.ok (s2, p2)) :
    Inv store s2 p2 := by
  have hRest : ∀ x ∈ rest, Hashed store x := fun x hx =>
    hInv.1 x (List.mem_cons_of_mem _ hx)
  unfold ScalarStore.addScalarPtr at h
  cases hspm : lookupList store.scalarPtrMap sp with
  | none =>
    exfalso
    have hs := hydrated_lookup_isSome hhyd
      (hInv.1 sp (List.mem_cons_self _ _))
    rw [hspm] at hs
    exact Bool.noConfusion hs
  | some ptr =>
    rw [hspm] at h
    dsimp only at h
    unfold ScalarStore.add at h
    cases hl : s.scalar_map.lookup sp with
    | some w =>
      rw [hl] at h
      simp only [Except.ok.injEq, Prod.mk.injEq] at h
      rw [← h.1, ← h.2]
      refine ⟨hRest, ?_⟩
      intro k e hk
      obtain ⟨hnt, hch⟩ := hInv.2 k e hk
      refine ⟨hnt, ?_⟩
      intro c hc
      rcases hch c hc with h2 | h2
      · exact Or.inl h2
      · rcases List.mem_cons.mp h2 with h3 | h3
        · rw [h3, hl]
          exact Or.inl rfl
        · exact Or.inr h3
    | none =>
      rw [hl] at h
      cases hf : ScalarExpression.fromPtr store ptr with
      | error e => rw [hf] at h; exact Except.noConfusion h
      | ok oe =>
        rw [hf] at h
        cases oe with
        | none =>
          simp only [Except.ok.injEq, Prod.mk.injEq] at h
          rw [← h.1, ← h.2]
          refine ⟨hRest, ?_⟩
          intro k e hk
          by_cases hksp : k = sp
          · rw [hksp, SMap.lookup_insert_self] at hk
            exact Option.noConfusion (Option.some.inj hk)
          · rw [SMap.lookup_insert_ne _ hksp] at hk
            obtain ⟨hnt, hch⟩ := hInv.2 k e hk
            refine ⟨hnt, ?_⟩
            intro c hc
            rcases hch c hc with h2 | h2
            · exact Or.inl (lookup_insert_isSome_mono h2)
            · rcases List.mem_cons.mp h2 with h3 | h3
              · rw [h3]
                refine Or.inl ?_
                rw [SMap.lookup_insert_self]
                rfl
              · exact Or.inr h3
        | some e0 =>
          simp only [Except.ok.injEq, Prod.mk.injEq] at h
          obtain ⟨hnt0, hch0⟩ := fromPtr_ok_some_props hf
          have hchl : (match childScalarPtrs e0 with
              | some more_scalar_ptrs => more_scalar_ptrs
              | none => []) = childListD e0 := rfl
          rw [hchl] at h
          rw [← h.1, ← h.2]
          constructor
          · intro x hx
            rcases List.mem_append.mp hx with h2 | h2
            · exact hch0 x (List.mem_reverse.mp h2)
            · exact hRest x h2
          · intro k e hk
            by_cases hksp : k = sp
            · rw [hksp, SMap.lookup_insert_self] at hk
              have he : e0 = e := Option.some.inj (Option.some.inj hk)
              rw [← he]
              refine ⟨hnt0, ?_⟩
              intro c hc
              exact Or.inr (List.mem_append.mpr
                (Or.inl (List.mem_reverse.mpr hc)))
            · rw [SMap.lookup_insert_ne _ hksp] at hk
              obtain ⟨hnt, hch⟩ := hInv.2 k e hk
              refine ⟨hnt, ?_⟩
              intro c hc
              rcases hch c hc with h2 | h2
              · exact Or.inl (lookup_insert_isSome_mono h2)
              · rcases List.mem_cons.mp h2 with h3 | h3
                · rw [h3]
                  refine Or.inl ?_
                  rw [SMap.lookup_insert_self]
                  rfl
                · exact Or.inr (List.mem_append.mpr (Or.inr h3))

/-- The worklist loop preserves the invariant. -/
theorem runPending_preserves_inv {store : Store F}
    (hhyd : store.hydrated) :
    ∀ {fuel : Nat} {s : ScalarStore F} {pending : List (ScalarPtr F)}
    {s2 : ScalarStore F} {p2 : List (ScalarPtr F)},
    Inv store s pending →
    ScalarStore.runPending store fuel s pending = Except.ok (s2, p2) →
    Inv store s2 p2 := by
  intro fuel
  induction fuel with
  | zero =>
    intro s pending s2 p2 hInv h
    cases pending with
    | nil =>
      simp only [ScalarStore.runPending, Except.ok.injEq,
        Prod.mk.injEq] at h
      rw [← h.1, ← h.2]
      exact ⟨fun x hx => absurd hx (List.not_mem_nil _), hInv.2⟩
    | cons a t =>
      simp only [ScalarStore.runPending, Except.ok.injEq,
        Prod.mk.injEq] at h
      rw [← h.1, ← h.2]
      exact hInv
  | succ n ih =>
    intro s pending s2 p2 hInv h
    cases pending with
    | nil =>
      simp only [ScalarStore.runPending, Except.ok.injEq,
        Prod.mk.injEq] at h
      rw [← h.1, ← h.2]
      exact ⟨fun x hx => absurd hx (List.not_mem_nil _), hInv.2⟩
    | cons a t =>
      simp only [ScalarStore.runPending] at h
      cases hst : ScalarStore.addScalarPtr store s t a with
      | error e => rw [hst] at h; exact Except.noConfusion h
      | ok r =>
        rw [hst] at h
        obtain ⟨s3, p3⟩ := r
        exact ih (addScalarPtr_preserves_inv hhyd hInv hst) h

/-- A graph satisfying the invariant with an empty worklist is complete
with respect to the spec payload table. -/
theorem complete_of_inv {store : Store F} {s : ScalarStore F}
    (hInv : Inv store s []) : s.complete := by
  intro ent hent
  unfold entryComplete
  cases hv : ent.2 with
  | none => trivial
  | some e =>
    have hlk : s.scalar_map.lookup ent.1 = some ent.2 :=
      SMap.lookup_of_mem (by
        obtain ⟨k, v⟩ := ent
        exact hent)
    rw [hv] at hlk
    obtain ⟨hnt, hch⟩ := hInv.2 ent.1 e hlk
    constructor
    · intro c hc
      rw [specChildExprAddrs_eq_childListD hnt] at hc
      rcases hch c hc with h2 | h2
      · exact h2
      · exact absurd h2 (List.not_mem_nil _)
    · intro q hq
      rw [specChildContAddrs_eq_nil hnt] at hq
      exact absurd hq (List.not_mem_nil _)

end Completeness

/-- C1: traversal completeness.  For every hydrated host store and root
expression, in the snapshot graph returned by `new_with_expr` every
content address occurring as a child inside any `Some` payload — per
the spec payload table, including the value/continuation of `Thunk` —
is itself a key of the appropriate map. -/
theorem traversal_completeness {F : Type} [LurkField F]
    (store : Store F) (expr : Ptr F) (s : ScalarStore F)
    (r : Option (ScalarPtr F)) (hhyd : store.hydrated)
    (h : ScalarStore.newWithExpr store expr = .ok (s, r)) :
    s.complete := by
  unfold ScalarStore.newWithExpr ScalarStore.addOnePtr at h
  cases hap : ScalarStore.addPtr store ScalarStore.empty [] expr with
  | error e => rw [hap] at h; exact Except.noConfusion h
  | ok r0 =>
    rw [hap] at h
    obtain ⟨⟨s1, pend1⟩, sp1⟩ := r0
    dsimp only at h
    unfold ScalarStore.finalizeStore ScalarStore.addPendingScalarPtrs at h
    cases hrp : ScalarStore.runPending store
        (ScalarStore.pendingFuel store s1 pend1) s1 pend1 with
    | error e => rw [hrp] at h; exact Except.noConfusion h
    | ok r2 =>
      rw [hrp] at h
      obtain ⟨s3, p3⟩ := r2
      simp only [Except.map, Except.ok.injEq, Prod.mk.injEq] at h
      have hInv1 : Inv store s1 pend1 := by
        unfold ScalarStore.addPtr at hap
        cases hg : store.getExprHash expr with
        | some sp0 =>
          rw [hg] at hap
          dsimp only at hap
          cases ha : ScalarStore.add store ScalarStore.empty [] expr
              sp0 with
          | error e => rw [ha] at hap; exact Except.noConfusion hap
          | ok radd =>
            obtain ⟨sdd, pdd⟩ := radd
            rw [ha] at hap
            simp only [Except.map, Except.ok.injEq, Prod.mk.injEq] at hap
            have hInv0 := add_preserves_inv (inv_empty store) ha
            obtain ⟨⟨he1, he2⟩, _⟩ := hap
            rw [← he1, ← he2]
            exact hInv0
        | none =>
          rw [hg] at hap
          simp only [Except.ok.injEq, Prod.mk.injEq] at hap
          obtain ⟨⟨he1, he2⟩, _⟩ := hap
          rw [← he1, ← he2]
          exact inv_empty store
      have hdrain := runPending_drains _ s1 pend1 (Nat.le_refl _) s3 p3 hrp
      have hInv3 := runPending_preserves_inv hhyd hInv1 hrp
      rw [hdrain] at hInv3
      rw [← h.1]
      exact complete_of_inv hInv3

/-- C1, witness: the concrete materialization of `(1 . 2)` from the
hydrated store `wStore` is complete. -/
theorem traversal_completeness_witness : wFinalS.complete :=
  traversal_completeness wStore wCons wFinalS (some waCons) (by decide)
    rfl

/-- C6, witness: two insertion orders of the same two expression entries
serialize identically. -/
theorem serF_deterministic_witness :
    ScalarStore.serF
      ⟨SMap.ofList [(waNum1, some (ScalarExpression.Num 1)), (waNum2, none)],
        SMap.ofList []⟩ =
    ScalarStore.serF
      ⟨SMap.ofList [(waNum2, none), (waNum1, some (ScalarExpression.Num 1))],
        SMap.ofList []⟩ :=
  serF_deterministic.2
    [(waNum1, some (ScalarExpression.Num 1)), (waNum2, none)]
    [(waNum2, none), (waNum1, some (ScalarExpression.Num 1))]
    [] [] (by decide) (by decide) (List.Perm.refl []) (by decide)

end Lurk
